import Mathlib

/-
Verification of the RWYEngine relationship-map core: a shallow embedding of
graph.py (build_graph), graph_viewer.py (tree layout, neighbor highlighting,
curved-edge geometry, PNG export and fit-to-view guards) and database.py
(cascade deletion), together with theorems settling the specified behaviour.

Conventions of the embedding:
- Python dicts keyed by insertion order (networkx node/edge/adjacency dicts,
  the layout dicts) are modelled as association lists updated in place.
- Python sets that are only queried for membership are modelled as lists.
- Qt's rational-valued geometry (QPointF arithmetic) is modelled over the
  rationals; all quantities appearing in the claims are exact.
-/

namespace RWY

/-- Entry record as consumed by build_graph: the fields id, title, category of
a row of the entries table.  A NULL column is modelled as none, an empty string
as some "". -/
structure EntryRec where
  id : Nat
  title : Option String
  category : Option String
deriving DecidableEq, Repr

/-- Relationship record as consumed by build_graph: entry_a, entry_b, type. -/
structure RelRec where
  entry_a : Nat
  entry_b : Nat
  type : Option String
deriving DecidableEq, Repr

/-- Python truthiness coalescing for string fields: the expression
x or default, which yields default when x is None or the empty string. -/
def pyOr : Option String → String → String
  | none, d => d
  | some s, d => if s = "" then d else s

/-- Node attributes stored by build_graph: label and category. -/
structure NodeData where
  label : String
  category : String
deriving DecidableEq, Repr

/-- Line 21 of graph.py: title = e["title"] or f"ID {entry_id}". -/
def entryLabel (e : EntryRec) : String := pyOr e.title ("ID " ++ toString e.id)

/-- Line 22 of graph.py: category = e["category"] or "default". -/
def entryCategory (e : EntryRec) : String := pyOr e.category "default"

/-- Line 30 of graph.py: rel_type = r["type"] or "relationship". -/
def relLabel (r : RelRec) : String := pyOr r.type "relationship"

/-- A networkx DiGraph as built and consumed by this program: nodes as an
insertion-ordered association list id -> attributes, edges as an
insertion-ordered association list (src, dst) -> label. -/
structure DiGraph where
  nodes : List (Nat × NodeData)
  edges : List (Nat × Nat × String)
deriving DecidableEq, Repr

/-- networkx G.add_node: insert a node, updating the attributes in place when
the id is already present (insertion order preserved). -/
def addNode (ns : List (Nat × NodeData)) (id : Nat) (d : NodeData) :
    List (Nat × NodeData) :=
  if ns.any (fun p => p.1 = id) then
    ns.map (fun p => if p.1 = id then (p.1, d) else p)
  else ns ++ [(id, d)]

/-- networkx G.add_edge on a DiGraph: insert a directed edge, updating the
label in place when the ordered pair is already present. -/
def addEdge (es : List (Nat × Nat × String)) (a b : Nat) (lbl : String) :
    List (Nat × Nat × String) :=
  if es.any (fun e => e.1 = a ∧ e.2.1 = b) then
    es.map (fun e => if e.1 = a ∧ e.2.1 = b then (e.1, e.2.1, lbl) else e)
  else es ++ [(a, b, lbl)]

/-- build_graph (graph.py lines 16-35): one node per entry record with
defaulted label/category, then one directed edge per relationship record whose
both endpoints already exist as nodes, labelled with the defaulted type. -/
def buildGraph (entries : List EntryRec) (relationships : List RelRec) :
    DiGraph :=
  let nodes := entries.foldl
    (fun ns e => addNode ns e.id ⟨entryLabel e, entryCategory e⟩) []
  let ids := nodes.map Prod.fst
  let edges := relationships.foldl
    (fun es r =>
      if r.entry_a ∈ ids ∧ r.entry_b ∈ ids then
        addEdge es r.entry_a r.entry_b (relLabel r)
      else es) []
  ⟨nodes, edges⟩

/-- The node ids of a graph in insertion order (networkx G.nodes). -/
def DiGraph.nodeIds (G : DiGraph) : List Nat := G.nodes.map Prod.fst

/-- Attribute lookup for a node id. -/
def DiGraph.nodeData (G : DiGraph) (n : Nat) : Option NodeData :=
  (G.nodes.find? (fun p => p.1 = n)).map Prod.snd

/-- networkx DiGraph successors of n in adjacency insertion order. -/
def DiGraph.successors (G : DiGraph) (n : Nat) : List Nat :=
  (G.edges.filter (fun e => e.1 = n)).map (fun e => e.2.1)

/-- networkx DiGraph predecessors of n in adjacency insertion order. -/
def DiGraph.predecessors (G : DiGraph) (n : Nat) : List Nat :=
  (G.edges.filter (fun e => e.2.1 = n)).map (fun e => e.1)

/-- networkx DiGraph.degree: out-degree plus in-degree. -/
def DiGraph.degree (G : DiGraph) (n : Nat) : Nat :=
  (G.edges.filter (fun e => e.1 = n)).length +
    (G.edges.filter (fun e => e.2.1 = n)).length

/-- networkx edge iteration order (G.edges): sources in node insertion order,
and for each source its successors in adjacency insertion order. -/
def DiGraph.edgeIter (G : DiGraph) : List (Nat × Nat × String) :=
  G.nodeIds.flatMap (fun u => G.edges.filter (fun e => e.1 = u))

/-- Append m to an undirected adjacency list unless already present
(networkx Graph adjacency insertion). -/
def addNbr (acc : List Nat) (m : Nat) : List Nat :=
  if m ∈ acc then acc else acc ++ [m]

/-- Adjacency of G.to_undirected() in networkx order: scanning the directed
edges in iteration order, each edge incident to n contributes its other
endpoint (a self loop contributes n itself) on first sight. -/
def DiGraph.ugNeighbors (G : DiGraph) (n : Nat) : List Nat :=
  G.edgeIter.foldl (fun acc e =>
    if e.1 = n then addNbr acc e.2.1
    else if e.2.1 = n then addNbr acc e.1
    else acc) []

/-- Degree of n in G.to_undirected(): the adjacency length, plus one more for
a self loop (networkx counts an undirected self loop twice). -/
def DiGraph.ugDegree (G : DiGraph) (n : Nat) : Nat :=
  (G.ugNeighbors n).length + (if n ∈ G.ugNeighbors n then 1 else 0)

/-- A row of the entries table (database.py schema). -/
structure EntryRow where
  id : Nat
  title : String
  description : String
  category : String
  tags : String
  synonyms : String
deriving DecidableEq, Repr

/-- A row of the relationships table (database.py schema). -/
structure RelRow where
  id : Nat
  entry_a : Nat
  entry_b : Nat
  type : Option String
deriving DecidableEq, Repr

/-- The contents of the two-table store. -/
structure DBState where
  entries : List EntryRow
  relationships : List RelRow
deriving DecidableEq, Repr

/-- Database.delete_entry_and_relationships (database.py lines 80-91):
DELETE FROM relationships WHERE entry_a = ? OR entry_b = ?, then
DELETE FROM entries WHERE id = ?. -/
def deleteEntryAndRelationships (st : DBState) (entryId : Nat) : DBState :=
  { relationships :=
      st.relationships.filter
        (fun r => ¬ (r.entry_a = entryId ∨ r.entry_b = entryId)),
    entries := st.entries.filter (fun e => ¬ e.id = entryId) }

/-- Geometry produced by CurvedEdgeItem.update_path for one edge: the
quadratic path (start, control, end) and the anchor at which the label is
centered. -/
structure EdgePath where
  pathStart : ℚ × ℚ
  pathCtrl : ℚ × ℚ
  pathEnd : ℚ × ℚ
  labelAnchor : ℚ × ℚ
deriving DecidableEq, Repr

/-- QPointF.manhattanLength: the L1 norm. -/
def manhattanLength (p : ℚ × ℚ) : ℚ := |p.1| + |p.2|

/-- CurvedEdgeItem.update_path (graph_viewer.py lines 173-203) on endpoint
centers p1 and p2: control point at the chord midpoint plus 40 times the
Manhattan-normalised perpendicular of the chord, and the label anchored at the
quadratic Bezier point at t = 1/2. -/
def updatePath (p1 p2 : ℚ × ℚ) : EdgePath :=
  let mid : ℚ × ℚ := ((p1.1 + p2.1) / 2, (p1.2 + p2.2) / 2)
  let vec : ℚ × ℚ := (p2.1 - p1.1, p2.2 - p1.2)
  let perp0 : ℚ × ℚ := (-vec.2, vec.1)
  let perp : ℚ × ℚ :=
    if manhattanLength perp0 > 0 then
      (perp0.1 / manhattanLength perp0, perp0.2 / manhattanLength perp0)
    else perp0
  let ctrl : ℚ × ℚ := (mid.1 + perp.1 * 40, mid.2 + perp.2 * 40)
  let t : ℚ := 1 / 2
  { pathStart := p1
    pathCtrl := ctrl
    pathEnd := p2
    labelAnchor :=
      ((1 - t) ^ 2 * p1.1 + 2 * (1 - t) * t * ctrl.1 + t ^ 2 * p2.1,
       (1 - t) ^ 2 * p1.2 + 2 * (1 - t) * t * ctrl.2 + t ^ 2 * p2.2) }

/-- Evaluation of the quadratic Bezier curve with control points p1, c, p2. -/
def quadBezier (p1 c p2 : ℚ × ℚ) (t : ℚ) : ℚ × ℚ :=
  ((1 - t) ^ 2 * p1.1 + 2 * (1 - t) * t * c.1 + t ^ 2 * p2.1,
   (1 - t) ^ 2 * p1.2 + 2 * (1 - t) * t * c.2 + t ^ 2 * p2.2)

/-- Python tuple(sorted((src, dst))) on an integer pair. -/
def unorderedKey (e : Nat × Nat) : Nat × Nat := (min e.1 e.2, max e.1 e.2)

/-- The edge items created by GraphViewer.draw_graph (graph_viewer.py lines
358-383): iterate the graph edges, skip an edge whose unordered endpoint pair
was already seen, mark the pair seen, then skip it when an endpoint has no node
item (node items exist exactly for the graph nodes). -/
def drawnEdges (G : DiGraph) : List (Nat × Nat × String) :=
  (G.edgeIter.foldl
    (fun (sp : List (Nat × Nat) × List (Nat × Nat × String)) e =>
      if unorderedKey (e.1, e.2.1) ∈ sp.1 then sp
      else if e.1 ∈ G.nodeIds ∧ e.2.1 ∈ G.nodeIds then
        (sp.1 ++ [unorderedKey (e.1, e.2.1)], sp.2 ++ [e])
      else (sp.1 ++ [unorderedKey (e.1, e.2.1)], sp.2))
    ([], [])).2

/-- Position dictionary lookup. -/
def posLookup (pos : List (Nat × ℚ × ℚ)) (n : Nat) : Option (ℚ × ℚ) :=
  (pos.find? (fun q => q.1 = n)).map Prod.snd

/-- Fixed category to fill color table of draw_graph, with gray default. -/
def colorMap (category : String) : String :=
  if category = "Character" then "#66AAFF"
  else if category = "Location" then "#88CC66"
  else if category = "Item" then "#FFCC66"
  else if category = "Event" then "#CC66FF"
  else if category = "default" then "#AAAAAA"
  else "#AAAAAA"

/-- Visual state of a NodeItem as created by draw_graph. -/
structure NodeItemM where
  nodeId : Nat
  center : ℚ × ℚ
  radius : ℚ
  fillColor : String
  label : String
deriving DecidableEq, Repr

/-- An item added to the QGraphicsScene by draw_graph: a node circle (with its
child label), a curved edge, or an edge label. -/
inductive SceneItem where
  | node (item : NodeItemM)
  | edge (e : Nat × Nat × String)
  | edgeLabel (e : Nat × Nat × String)
deriving DecidableEq, Repr

/-- GraphViewer.draw_graph (graph_viewer.py lines 318-383): one node item per
graph node, sized 22 + 4 * min(degree, 8), colored through the category table,
centered at its layout position (default (0, 0)); then per drawn edge one edge
item and one edge label item. -/
def drawGraphItems (G : DiGraph) (positions : List (Nat × ℚ × ℚ)) :
    List SceneItem :=
  (G.nodes.map (fun p =>
    SceneItem.node
      { nodeId := p.1
        center := (posLookup positions p.1).getD (0, 0)
        radius := 22 + 4 * (min (G.degree p.1) 8 : ℚ)
        fillColor := colorMap p.2.category
        label := p.2.label })) ++
  (drawnEdges G).flatMap (fun e => [SceneItem.edge e, SceneItem.edgeLabel e])

/-- QGraphicsScene.itemsBoundingRect().isNull(): the bounding rectangle of the
scene is null exactly when the scene holds no items (every item drawn by this
program has a rectangle of positive size). -/
def itemsBoundingRectIsNull (items : List SceneItem) : Bool := items.isEmpty

/-- Outcome of GraphViewer.export_png. -/
inductive ExportOutcome where
  | skippedNoDialog
  | cancelledNoFile
  | savedTo (fileName : String)
deriving DecidableEq, Repr

/-- GraphViewer.export_png (graph_viewer.py lines 442-467): return before
opening the save dialog when the scene bounding rectangle is null; return
without writing when the dialog yields no file name; otherwise render and save.
The dialog outcome is an input (an empty string is a cancelled dialog). -/
def exportPng (items : List SceneItem) (dialogFileName : String) :
    ExportOutcome :=
  if itemsBoundingRectIsNull items then ExportOutcome.skippedNoDialog
  else if dialogFileName = "" then ExportOutcome.cancelledNoFile
  else ExportOutcome.savedTo dialogFileName

/-- GraphViewer.fit_to_view (graph_viewer.py lines 436-440): leave the view
untouched when the scene bounding rectangle is null, else fit the view to the
items.  The view is modelled by the item set it was last fitted to. -/
def fitToView (items : List SceneItem) (view : Option (List SceneItem)) :
    Option (List SceneItem) :=
  if itemsBoundingRectIsNull items then view else some items

/-- The two layout strategies of GraphViewer. -/
inductive LayoutKind where
  | tree
  | force
deriving DecidableEq, Repr

/-- GraphViewer.compute_force_layout (graph_viewer.py lines 312-315): scale the
spring-embedder output by 320.  The raw spring positions are an input, since
nx.spring_layout is randomised. -/
def computeForceLayout (raw : List (Nat × ℚ × ℚ)) : List (Nat × ℚ × ℚ) :=
  raw.map (fun p => (p.1, (p.2.1 * 320, p.2.2 * 320)))

/-- Layout-relevant state of a GraphViewer: the current strategy name and the
position dictionary. -/
structure ViewerLayoutState where
  currentLayout : LayoutKind
  positions : List (Nat × ℚ × ℚ)
deriving DecidableEq, Repr

/-- Membership of n in the highlight set of a clicked node: successors union
predecessors union the clicked node itself (highlight_neighbors lines
420-423). -/
def inHighlightSet (G : DiGraph) (clicked n : Nat) : Prop :=
  n ∈ G.successors clicked ∨ n ∈ G.predecessors clicked ∨ n = clicked

instance (G : DiGraph) (clicked n : Nat) :
    Decidable (inHighlightSet G clicked n) :=
  inferInstanceAs (Decidable (n ∈ G.successors clicked ∨
    n ∈ G.predecessors clicked ∨ n = clicked))

/-- Node opacities assigned by GraphViewer.highlight_neighbors (lines
425-426): full opacity inside the highlight set, 0.25 outside. -/
def highlightNodeOpacities (G : DiGraph) (clicked : Nat) : List (Nat × ℚ) :=
  G.nodeIds.map (fun n =>
    (n, if inHighlightSet G clicked n then 1 else 1 / 4))

/-- Edge and edge-label opacities assigned by highlight_neighbors (lines
428-433): full opacity when both endpoints are highlighted, else 0.2; the
label always receives the same value as its edge. -/
def highlightEdgeOpacities (G : DiGraph) (clicked : Nat) :
    List ((Nat × Nat × String) × ℚ × ℚ) :=
  (drawnEdges G).map (fun e =>
    if inHighlightSet G clicked e.1 ∧ inHighlightSet G clicked e.2.1 then
      (e, 1, 1)
    else (e, 1 / 5, 1 / 5))

/-- All ids a breadth-first traversal over G can ever touch: the node ids
together with both endpoints of every edge. -/
def DiGraph.nodeUniverse (G : DiGraph) : List Nat :=
  G.nodeIds ++ G.edges.flatMap (fun e => [e.1, e.2.1])

theorem mem_addNbr {acc : List Nat} {m x : Nat} (hx : x ∈ addNbr acc m) :
    x ∈ acc ∨ x = m := by
  unfold addNbr at hx
  by_cases h : m ∈ acc
  · rw [if_pos h] at hx
    exact Or.inl hx
  · rw [if_neg h] at hx
    rcases List.mem_append.1 hx with h1 | h1
    · exact Or.inl h1
    · exact Or.inr (List.mem_singleton.1 h1)

theorem mem_edgeIter_endpoints {G : DiGraph} {e : Nat × Nat × String}
    (he : e ∈ G.edgeIter) : e.1 ∈ G.nodeUniverse ∧ e.2.1 ∈ G.nodeUniverse := by
  unfold DiGraph.edgeIter at he
  rcases List.mem_flatMap.1 he with ⟨u, _, hmem⟩
  have hee : e ∈ G.edges := List.mem_of_mem_filter hmem
  constructor
  · apply List.mem_append_right
    exact List.mem_flatMap.2 ⟨e, hee, by simp⟩
  · apply List.mem_append_right
    exact List.mem_flatMap.2 ⟨e, hee, by simp⟩

theorem mem_ugNeighbors_universe {G : DiGraph} {n x : Nat}
    (hx : x ∈ G.ugNeighbors n) : x ∈ G.nodeUniverse := by
  unfold DiGraph.ugNeighbors at hx
  suffices h : ∀ (l : List (Nat × Nat × String)) (acc : List Nat),
      (∀ y ∈ acc, y ∈ G.nodeUniverse) → (∀ e ∈ l, e ∈ G.edgeIter) →
      ∀ y ∈ l.foldl (fun acc e =>
        if e.1 = n then addNbr acc e.2.1
        else if e.2.1 = n then addNbr acc e.1
        else acc) acc, y ∈ G.nodeUniverse by
    exact h G.edgeIter [] (by simp) (fun _ he => he) x hx
  intro l
  induction l with
  | nil => intro acc hacc _ y hy; exact hacc y hy
  | cons e rest ih =>
    intro acc hacc hl y hy
    have hein : e ∈ G.edgeIter := hl e (List.mem_cons_self _ _)
    have hend := mem_edgeIter_endpoints hein
    refine ih _ ?_ (fun f hf => hl f (List.mem_cons_of_mem _ hf)) y hy
    intro z hz
    simp only [] at hz
    by_cases h1 : e.1 = n
    · rw [if_pos h1] at hz
      rcases mem_addNbr hz with h | h
      · exact hacc z h
      · rw [h]; exact hend.2
    · rw [if_neg h1] at hz
      by_cases h2 : e.2.1 = n
      · rw [if_pos h2] at hz
        rcases mem_addNbr hz with h | h
        · exact hacc z h
        · rw [h]; exact hend.1
      · rw [if_neg h2] at hz
        exact hacc z hz

/-- Python layers.setdefault(depth, []).append(node): append node to the list
at key depth, creating the key at the end of the dict when absent. -/
def layersAppend (layers : List (Nat × List Nat)) (d : Nat) (n : Nat) :
    List (Nat × List Nat) :=
  if layers.any (fun p => p.1 = d) then
    layers.map (fun p => if p.1 = d then (p.1, p.2 ++ [n]) else p)
  else layers ++ [(d, [n])]

/-- Lookup of the node list stored at a depth key. -/
def layersLookup (layers : List (Nat × List Nat)) (d : Nat) :
    Option (List Nat) :=
  (layers.find? (fun p => p.1 = d)).map Prod.snd

/-- All nodes stored in a layers dict, in dict-then-list order. -/
def layersMembers (layers : List (Nat × List Nat)) : List Nat :=
  layers.flatMap Prod.snd

/-- The inner neighbor loop of the BFS in compute_tree_layout (lines 283-286):
each not-yet-visited neighbor is marked visited and enqueued at depth + 1. -/
def bfsPush (visited : List Nat) (queue : List (Nat × Nat)) (depth : Nat)
    (nbrs : List Nat) : List Nat × List (Nat × Nat) :=
  nbrs.foldl (fun vq nb =>
    if nb ∈ vq.1 then vq else (vq.1 ++ [nb], vq.2 ++ [(nb, depth + 1)]))
    (visited, queue)

/-- Termination measure for the BFS loop. -/
def bfsMeasure (G : DiGraph) (queue : List (Nat × Nat)) (visited : List Nat) :
    Nat :=
  2 * (G.nodeUniverse.filter (fun x => ¬ x ∈ visited)).length + queue.length

theorem length_filter_notMem_lt {l v : List Nat} {nb : Nat} (hmem : nb ∈ l)
    (hnv : ¬ nb ∈ v) :
    (l.filter (fun x => ¬ x ∈ (v ++ [nb]))).length <
      (l.filter (fun x => ¬ x ∈ v)).length := by
  have hsub : (l.filter (fun x => ¬ x ∈ (v ++ [nb]))).Sublist
      (l.filter (fun x => ¬ x ∈ v)) := by
    apply List.monotone_filter_right
    intro a ha
    simp only [decide_eq_true_eq] at *
    intro hav
    exact ha (List.mem_append_left _ hav)
  rcases Nat.lt_or_ge (l.filter (fun x => ¬ x ∈ (v ++ [nb]))).length
      (l.filter (fun x => ¬ x ∈ v)).length with h | h
  · exact h
  · exfalso
    have heq := hsub.eq_of_length (Nat.le_antisymm hsub.length_le h)
    have h1 : nb ∈ l.filter (fun x => ¬ x ∈ v) := by
      simp only [List.mem_filter, decide_eq_true_eq]
      exact ⟨hmem, hnv⟩
    rw [← heq] at h1
    simp only [List.mem_filter, decide_eq_true_eq] at h1
    exact h1.2 (List.mem_append_right _ (List.mem_singleton.mpr rfl))

theorem bfsPush_measure (G : DiGraph) (visited : List Nat)
    (queue : List (Nat × Nat)) (depth : Nat) (nbrs : List Nat)
    (hnb : ∀ x ∈ nbrs, x ∈ G.nodeUniverse) :
    bfsMeasure G (bfsPush visited queue depth nbrs).2
      (bfsPush visited queue depth nbrs).1 ≤ bfsMeasure G queue visited := by
  induction nbrs generalizing visited queue with
  | nil => simp [bfsPush]
  | cons nb rest ih =>
    simp only [bfsPush, List.foldl_cons]
    by_cases h : nb ∈ visited
    · simpa [h, bfsPush] using
        ih visited queue (fun x hx => hnb x (List.mem_cons_of_mem _ hx))
    · rw [if_neg h]
      have step := ih (visited ++ [nb]) (queue ++ [(nb, depth + 1)])
        (fun x hx => hnb x (List.mem_cons_of_mem _ hx))
      apply le_trans step
      have hlt := @length_filter_notMem_lt G.nodeUniverse visited nb
        (hnb nb (List.mem_cons_self _ _)) h
      unfold bfsMeasure
      simp only [List.length_append, List.length_cons, List.length_nil]
      omega

/-- The BFS while loop of compute_tree_layout (graph_viewer.py lines
280-286): pop the queue front, append the node to its depth layer, then mark
and enqueue its unvisited undirected neighbors at depth + 1.  Returns the
layers and the visited set. -/
def bfsLoop (G : DiGraph) : List (Nat × Nat) → List Nat →
    List (Nat × List Nat) → List (Nat × List Nat) × List Nat
  | [], visited, layers => (layers, visited)
  | (node, depth) :: rest, visited, layers =>
    bfsLoop G (bfsPush visited rest depth (G.ugNeighbors node)).2
      (bfsPush visited rest depth (G.ugNeighbors node)).1
      (layersAppend layers depth node)
  termination_by q v _ => bfsMeasure G q v
  decreasing_by
    have h := bfsPush_measure G visited rest depth (G.ugNeighbors node)
      (fun x hx => mem_ugNeighbors_universe hx)
    simp only [bfsMeasure, List.length_cons] at *
    omega

/-- The BFS of compute_tree_layout, started from the root at depth 0 with the
root pre-visited (lines 275-286): resulting (layers, visited). -/
def treeBfs (G : DiGraph) (rootId : Nat) : List (Nat × List Nat) × List Nat :=
  bfsLoop G [(rootId, 0)] [rootId] []

/-- The BFS layers dict of compute_tree_layout. -/
def treeBfsLayers (G : DiGraph) (rootId : Nat) : List (Nat × List Nat) :=
  (treeBfs G rootId).1

/-- The visited set after the BFS of compute_tree_layout. -/
def treeVisited (G : DiGraph) (rootId : Nat) : List Nat :=
  (treeBfs G rootId).2

/-- Line 288: max_depth = max(layers.keys()) if layers else 0. -/
def treeMaxDepth (layers : List (Nat × List Nat)) : Nat :=
  if layers.isEmpty then 0 else (layers.map Prod.fst).foldl max 0

/-- Lines 289-292: for each graph node not visited by the BFS, in node order,
increment max_depth and append the node to the (fresh) layer at the new
max_depth.  Returns the extended layers and the final max_depth. -/
def treeAddUnreached (G : DiGraph) (visited : List Nat)
    (layers : List (Nat × List Nat)) (maxDepth : Nat) :
    List (Nat × List Nat) × Nat :=
  G.nodeIds.foldl (fun p n =>
    if n ∈ visited then p else (layersAppend p.1 (p.2 + 1) n, p.2 + 1))
    (layers, maxDepth)

/-- The nodes of G the BFS did not visit, in node order. -/
def treeUnreached (G : DiGraph) (rootId : Nat) : List Nat :=
  G.nodeIds.filter (fun n => ¬ n ∈ treeVisited G rootId)

/-- The complete layers dict of compute_tree_layout after appending the
unreached nodes. -/
def treeFullLayers (G : DiGraph) (rootId : Nat) : List (Nat × List Nat) :=
  (treeAddUnreached G (treeVisited G rootId) (treeBfsLayers G rootId)
    (treeMaxDepth (treeBfsLayers G rootId))).1

/-- One insertion step of the stable descending sort by undirected degree:
x is placed before the first element of strictly smaller degree, hence after
every earlier element of equal degree. -/
def insertDesc (G : DiGraph) (x : Nat) : List Nat → List Nat
  | [] => [x]
  | y :: ys =>
    if G.ugDegree y < G.ugDegree x then x :: y :: ys
    else y :: insertDesc G x ys

/-- Python list.sort(key=lambda n: UG.degree(n), reverse=True) (line 295): the
stable sort by descending undirected degree, realised as stable insertion
sort (the stable sort of a list is unique, so any stable algorithm computes
the same function). -/
def sortByDegDesc (G : DiGraph) (l : List Nat) : List Nat :=
  l.foldl (fun acc x => insertDesc G x acc) []

/-- Line 294-295: sort every layer by descending undirected degree. -/
def sortLayers (G : DiGraph) (layers : List (Nat × List Nat)) :
    List (Nat × List Nat) :=
  layers.map (fun p => (p.1, sortByDegDesc G p.2))

/-- The sorted layers dict of compute_tree_layout. -/
def treeSortedLayers (G : DiGraph) (rootId : Nat) : List (Nat × List Nat) :=
  sortLayers G (treeFullLayers G rootId)

/-- Fixed vertical gap of compute_tree_layout (line 298). -/
def verticalGap : ℚ := 170

/-- Fixed horizontal gap of compute_tree_layout (line 299). -/
def horizontalGap : ℚ := 150

/-- Python pos[node] = value: in-place dict update. -/
def posSet (pos : List (Nat × ℚ × ℚ)) (n : Nat) (v : ℚ × ℚ) :
    List (Nat × ℚ × ℚ) :=
  if pos.any (fun q => q.1 = n) then
    pos.map (fun q => if q.1 = n then (q.1, v) else q)
  else pos ++ [(n, v)]

/-- The enumerate loop of lines 305-308: the node at enumeration index i of a
layer at the given depth receives x = startX + i * horizontalGap and
y = depth * verticalGap. -/
def placeNodes (pos : List (Nat × ℚ × ℚ)) (depth : Nat) (startX : ℚ)
    (i : Nat) : List Nat → List (Nat × ℚ × ℚ)
  | [] => pos
  | n :: rest =>
    placeNodes
      (posSet pos n (startX + (i : ℚ) * horizontalGap,
        (depth : ℚ) * verticalGap))
      depth startX (i + 1) rest

/-- Lines 301-308 for one layer: count nodes span (count - 1) * horizontalGap
centered on x = 0. -/
def placeLayer (pos : List (Nat × ℚ × ℚ)) (depth : Nat) (ns : List Nat) :
    List (Nat × ℚ × ℚ) :=
  placeNodes pos depth (-(((ns.length : ℤ) - 1 : ℤ) * horizontalGap) / 2) 0 ns

/-- GraphViewer.compute_tree_layout (graph_viewer.py lines 273-310): BFS
layering from the root over the undirected graph, sequential depths for
unreached nodes, per-layer stable sort by descending undirected degree, and
row placement with fixed gaps. -/
def computeTreeLayout (G : DiGraph) (rootId : Nat) : List (Nat × ℚ × ℚ) :=
  (treeSortedLayers G rootId).foldl (fun pos p => placeLayer pos p.1 p.2) []

/-- The initial layout choice of GraphViewer.__init__ (lines 262-267): tree
layout when a root id is given and is a node of the graph, else force layout.
The raw spring positions are an input. -/
def viewerInitLayout (G : DiGraph) (rootId : Option Nat)
    (raw : List (Nat × ℚ × ℚ)) : ViewerLayoutState :=
  match rootId with
  | some r =>
    if r ∈ G.nodeIds then ⟨LayoutKind.tree, computeTreeLayout G r⟩
    else ⟨LayoutKind.force, computeForceLayout raw⟩
  | none => ⟨LayoutKind.force, computeForceLayout raw⟩

/-- GraphViewer.apply_tree_layout (lines 386-391): recompute the tree layout
when the root id is a node of the graph, otherwise leave the state as it
was. -/
def applyTreeLayout (G : DiGraph) (rootId : Option Nat)
    (st : ViewerLayoutState) : ViewerLayoutState :=
  match rootId with
  | some r =>
    if r ∈ G.nodeIds then ⟨LayoutKind.tree, computeTreeLayout G r⟩ else st
  | none => st

/-- GraphViewer.apply_force_layout (lines 393-397). -/
def applyForceLayout (raw : List (Nat × ℚ × ℚ)) (_st : ViewerLayoutState) :
    ViewerLayoutState :=
  ⟨LayoutKind.force, computeForceLayout raw⟩

/-- Undirected adjacency relation of the graph: b is an undirected neighbor
of a. -/
def adjUG (G : DiGraph) (a b : Nat) : Prop := b ∈ G.ugNeighbors a

/-- Reachability from a treating the edges as undirected. -/
def reachUG (G : DiGraph) : Nat → Nat → Prop :=
  Relation.ReflTransGen (adjUG G)

/-- The ordered endpoint pair of a relationship record. -/
def relKey (r : RelRec) : Nat × Nat := (r.entry_a, r.entry_b)

/-- The ordered endpoint pair of a stored edge. -/
def edgeKey (e : Nat × Nat × String) : Nat × Nat := (e.1, e.2.1)

/-- The relationship rows whose both endpoints exist among the given node
ids (the rows build_graph turns into edges). -/
def validRels (ids : List Nat) (rels : List RelRec) : List RelRec :=
  rels.filter (fun r => r.entry_a ∈ ids ∧ r.entry_b ∈ ids)

/-- Example graph for the disconnected-node rule: root 0 connected only to
node 1, with isolated nodes 2 and 3. -/
def exGraphC2 : DiGraph :=
  buildGraph
    [⟨0, some "R", none⟩, ⟨1, some "A", none⟩, ⟨2, some "B", none⟩,
     ⟨3, some "C", none⟩]
    [⟨0, 1, some "knows"⟩]

/-- Example graph for the round-trip layout scenario: a chain 1 - 2 - 3. -/
def exGraphC3 : DiGraph :=
  buildGraph
    [⟨1, some "A", none⟩, ⟨2, some "B", none⟩, ⟨3, some "C", none⟩]
    [⟨1, 2, some "Ally"⟩, ⟨2, 3, some "Enemy"⟩]

theorem mem_addEdge_key {es : List (Nat × Nat × String)} {a b : Nat}
    {lbl : String} {e : Nat × Nat × String} (he : e ∈ addEdge es a b lbl) :
    (∃ f ∈ es, edgeKey e = edgeKey f) ∨ edgeKey e = (a, b) := by
  unfold addEdge at he
  by_cases h : es.any (fun e => e.1 = a ∧ e.2.1 = b)
  · rw [if_pos h] at he
    rcases List.mem_map.1 he with ⟨f, hf, hef⟩
    by_cases hk : f.1 = a ∧ f.2.1 = b
    · rw [if_pos hk] at hef
      right
      rw [← hef]
      simp [edgeKey, hk.1, hk.2]
    · rw [if_neg hk] at hef
      exact Or.inl ⟨f, hf, by rw [hef]⟩
  · rw [if_neg h] at he
    rcases List.mem_append.1 he with h1 | h1
    · exact Or.inl ⟨e, h1, rfl⟩
    · right
      rw [List.mem_singleton.1 h1]
      rfl

theorem mem_addEdge_label {es : List (Nat × Nat × String)} {a b : Nat}
    {lbl : String} {e : Nat × Nat × String} (he : e ∈ addEdge es a b lbl) :
    e ∈ es ∨ e.2.2 = lbl := by
  unfold addEdge at he
  by_cases h : es.any (fun e => e.1 = a ∧ e.2.1 = b)
  · rw [if_pos h] at he
    rcases List.mem_map.1 he with ⟨f, hf, hef⟩
    by_cases hk : f.1 = a ∧ f.2.1 = b
    · rw [if_pos hk] at hef
      right
      rw [← hef]
    · rw [if_neg hk] at hef
      exact Or.inl (hef ▸ hf)
  · rw [if_neg h] at he
    rcases List.mem_append.1 he with h1 | h1
    · exact Or.inl h1
    · right
      rw [List.mem_singleton.1 h1]

theorem mem_addNode {ns : List (Nat × NodeData)} {id : Nat} {d : NodeData}
    {p : Nat × NodeData} (hp : p ∈ addNode ns id d) :
    p ∈ ns ∨ p = (id, d) := by
  unfold addNode at hp
  by_cases h : ns.any (fun p => p.1 = id)
  · rw [if_pos h] at hp
    rcases List.mem_map.1 hp with ⟨f, hf, hef⟩
    by_cases hk : f.1 = id
    · rw [if_pos hk] at hef
      right
      rw [← hef, hk]
    · rw [if_neg hk] at hef
      exact Or.inl (hef ▸ hf)
  · rw [if_neg h] at hp
    rcases List.mem_append.1 hp with h1 | h1
    · exact Or.inl h1
    · exact Or.inr (List.mem_singleton.1 h1)

/-- The edge fold of build_graph only ever holds edges whose endpoints are
among the fixed node ids. -/
theorem edgesFold_endpoints (ids : List Nat) (rels : List RelRec)
    (es : List (Nat × Nat × String))
    (hes : ∀ e ∈ es, e.1 ∈ ids ∧ e.2.1 ∈ ids) :
    ∀ e ∈ rels.foldl (fun es r =>
        if r.entry_a ∈ ids ∧ r.entry_b ∈ ids then
          addEdge es r.entry_a r.entry_b (relLabel r)
        else es) es,
      e.1 ∈ ids ∧ e.2.1 ∈ ids := by
  induction rels generalizing es with
  | nil => exact hes
  | cons r rest ih =>
    intro e he
    simp only [List.foldl_cons] at he
    refine ih _ ?_ e he
    intro f hf
    by_cases hc : r.entry_a ∈ ids ∧ r.entry_b ∈ ids
    · rw [if_pos hc] at hf
      rcases mem_addEdge_key hf with ⟨g, hg, hfg⟩ | hfk
      · have := hes g hg
        have h12 : f.1 = g.1 ∧ f.2.1 = g.2.1 := by
          simpa [edgeKey, Prod.ext_iff] using hfg
        rw [h12.1, h12.2]
        exact this
      · have h12 : f.1 = r.entry_a ∧ f.2.1 = r.entry_b := by
          simpa [edgeKey, Prod.ext_iff] using hfk
        rw [h12.1, h12.2]
        exact hc
    · rw [if_neg hc] at hf
      exact hes f hf

/-- Claim C1: build_graph adds a directed edge only when both endpoint ids
are already present as nodes; a relationship referencing a missing entry id
contributes no edge and raises no error.  For entries with ids 1 and 2 and a
single relationship (1, 3), the graph has exactly 2 nodes and 0 edges, and
every edge of every built graph has both endpoints among the nodes. -/
theorem C1_build_graph_no_dangling_edges :
    (∀ (entries : List EntryRec) (rels : List RelRec),
      ∀ e ∈ (buildGraph entries rels).edges,
        e.1 ∈ (buildGraph entries rels).nodeIds ∧
          e.2.1 ∈ (buildGraph entries rels).nodeIds) ∧
    (buildGraph [⟨1, some "A", none⟩, ⟨2, some "B", none⟩]
        [⟨1, 3, some "ally"⟩]).nodes.length = 2 ∧
    (buildGraph [⟨1, some "A", none⟩, ⟨2, some "B", none⟩]
        [⟨1, 3, some "ally"⟩]).edges = [] := by
  refine ⟨?_, by decide, by decide⟩
  intro entries rels
  exact edgesFold_endpoints ((buildGraph entries rels).nodeIds) rels []
    (by simp)

theorem C1_build_graph_no_dangling_edges_witness :
    (1 ∈ (buildGraph [⟨1, some "A", none⟩, ⟨2, some "B", none⟩]
        [⟨1, 2, some "ally"⟩]).nodeIds ∧
      2 ∈ (buildGraph [⟨1, some "A", none⟩, ⟨2, some "B", none⟩]
        [⟨1, 2, some "ally"⟩]).nodeIds) :=
  C1_build_graph_no_dangling_edges.1
    [⟨1, some "A", none⟩, ⟨2, some "B", none⟩] [⟨1, 2, some "ally"⟩]
    (1, 2, "ally") (by decide)

/-- Claim C9: deleting an entry also deletes every relationship row that
references it as either endpoint; rows referencing neither endpoint survive,
and the entry itself is removed. -/
theorem C9_delete_entry_cascades (st : DBState) (entryId : Nat) :
    (∀ r ∈ (deleteEntryAndRelationships st entryId).relationships,
       ¬ r.entry_a = entryId ∧ ¬ r.entry_b = entryId) ∧
    (∀ r ∈ st.relationships, ¬ r.entry_a = entryId → ¬ r.entry_b = entryId →
       r ∈ (deleteEntryAndRelationships st entryId).relationships) ∧
    (∀ e ∈ (deleteEntryAndRelationships st entryId).entries,
       ¬ e.id = entryId) := by
  refine ⟨?_, ?_, ?_⟩
  · intro r hr
    simp only [deleteEntryAndRelationships, List.mem_filter,
      decide_eq_true_eq] at hr
    have := hr.2
    constructor
    · intro h
      exact this (Or.inl h)
    · intro h
      exact this (Or.inr h)
  · intro r hr ha hb
    simp only [deleteEntryAndRelationships, List.mem_filter,
      decide_eq_true_eq]
    refine ⟨hr, ?_⟩
    intro h
    rcases h with h | h
    · exact ha h
    · exact hb h
  · intro e he
    simp only [deleteEntryAndRelationships, List.mem_filter,
      decide_eq_true_eq] at he
    exact he.2

theorem C9_delete_entry_cascades_witness :
    (⟨7, 3, 4, none⟩ : RelRow) ∈
      (deleteEntryAndRelationships
        ⟨[⟨1, "a", "", "", "", ""⟩],
         [⟨6, 1, 2, none⟩, ⟨7, 3, 4, none⟩]⟩ 1).relationships :=
  (C9_delete_entry_cascades
      ⟨[⟨1, "a", "", "", "", ""⟩], [⟨6, 1, 2, none⟩, ⟨7, 3, 4, none⟩]⟩
      1).2.1
    ⟨7, 3, 4, none⟩ (by decide) (by decide) (by decide)

/-- Claim C10: on an empty graph the drawn scene is empty, so the scene
bounding rectangle is null; export_png then returns before prompting for a
path and writes no file, and fit_to_view returns with the view unchanged. -/
theorem C10_empty_graph_noops (G : DiGraph) (positions : List (Nat × ℚ × ℚ))
    (dialogFileName : String) (view : Option (List SceneItem))
    (h : G.nodes = []) :
    drawGraphItems G positions = [] ∧
    exportPng (drawGraphItems G positions) dialogFileName =
      ExportOutcome.skippedNoDialog ∧
    fitToView (drawGraphItems G positions) view = view := by
  have hids : G.nodeIds = [] := by
    simp [DiGraph.nodeIds, h]
  have hiter : G.edgeIter = [] := by
    simp [DiGraph.edgeIter, hids]
  have hdrawn : drawnEdges G = [] := by
    simp [drawnEdges, hiter]
  have hitems : drawGraphItems G positions = [] := by
    simp [drawGraphItems, h, hdrawn]
  refine ⟨hitems, ?_, ?_⟩
  · rw [hitems]
    rfl
  · rw [hitems]
    rfl

theorem C10_empty_graph_noops_witness :
    drawGraphItems (buildGraph [] []) [] = [] ∧
    exportPng (drawGraphItems (buildGraph [] []) []) "graph.png" =
      ExportOutcome.skippedNoDialog ∧
    fitToView (drawGraphItems (buildGraph [] []) []) none = none :=
  C10_empty_graph_noops (buildGraph [] []) [] "graph.png" none (by decide)

/-- Claim C7: when the root id is None or not a node of the graph, the viewer
never crashes: the initial layout decision falls back to force layout, and the
tree-layout button leaves the state unchanged, so the viewer keeps a
force-directed position mapping. -/
theorem C7_invalid_root_falls_back_to_force (G : DiGraph)
    (rootId : Option Nat) (raw : List (Nat × ℚ × ℚ))
    (st : ViewerLayoutState)
    (h : ∀ r, rootId = some r → ¬ r ∈ G.nodeIds) :
    viewerInitLayout G rootId raw =
      ⟨LayoutKind.force, computeForceLayout raw⟩ ∧
    applyTreeLayout G rootId st = st ∧
    applyTreeLayout G rootId (viewerInitLayout G rootId raw) =
      ⟨LayoutKind.force, computeForceLayout raw⟩ := by
  match rootId with
  | none => exact ⟨rfl, rfl, rfl⟩
  | some r =>
    have hr : ¬ r ∈ G.nodeIds := h r rfl
    refine ⟨?_, ?_, ?_⟩
    · simp [viewerInitLayout, hr]
    · simp [applyTreeLayout, hr]
    · simp [applyTreeLayout, viewerInitLayout, hr]

theorem C7_invalid_root_falls_back_to_force_witness :
    viewerInitLayout (buildGraph [⟨1, some "A", none⟩] []) (some 99)
        [(1, (1, 1))] =
      ⟨LayoutKind.force, computeForceLayout [(1, (1, 1))]⟩ ∧
    applyTreeLayout (buildGraph [⟨1, some "A", none⟩] []) (some 99)
        ⟨LayoutKind.force, []⟩ =
      ⟨LayoutKind.force, []⟩ ∧
    applyTreeLayout (buildGraph [⟨1, some "A", none⟩] []) (some 99)
        (viewerInitLayout (buildGraph [⟨1, some "A", none⟩] [])
          (some 99) [(1, (1, 1))]) =
      ⟨LayoutKind.force, computeForceLayout [(1, (1, 1))]⟩ :=
  C7_invalid_root_falls_back_to_force (buildGraph [⟨1, some "A", none⟩] [])
    (some 99) [(1, (1, 1))] ⟨LayoutKind.force, []⟩
    (fun r hr => by cases hr; decide)

/-- Claim C4: highlight_neighbors gives opacity 1 exactly to the clicked node
and its successors and predecessors and 0.25 to every other node, and gives an
edge and its label opacity 1 exactly when both endpoints are in that set,
otherwise 0.2. -/
theorem C4_highlight_neighbors_opacities (G : DiGraph) (clicked : Nat) :
    (∀ n op, (n, op) ∈ highlightNodeOpacities G clicked →
      (op = 1 ↔ (n ∈ G.successors clicked ∨ n ∈ G.predecessors clicked ∨
        n = clicked)) ∧
      (¬ (n ∈ G.successors clicked ∨ n ∈ G.predecessors clicked ∨
        n = clicked) → op = 1 / 4)) ∧
    (∀ n ∈ G.nodeIds, ∃ op, (n, op) ∈ highlightNodeOpacities G clicked) ∧
    (∀ e opEdge opLabel,
      (e, opEdge, opLabel) ∈ highlightEdgeOpacities G clicked →
      opLabel = opEdge ∧
      (opEdge = 1 ↔ (inHighlightSet G clicked e.1 ∧
        inHighlightSet G clicked e.2.1)) ∧
      (¬ (inHighlightSet G clicked e.1 ∧ inHighlightSet G clicked e.2.1) →
        opEdge = 1 / 5)) := by
  refine ⟨?_, ?_, ?_⟩
  · intro n op hmem
    rcases List.mem_map.1 hmem with ⟨m, _, hm⟩
    have hn : m = n := congrArg Prod.fst hm
    have hop : (if inHighlightSet G clicked m then (1 : ℚ) else 1 / 4) = op :=
      congrArg Prod.snd hm
    subst hn
    by_cases hin : inHighlightSet G clicked m
    · rw [if_pos hin] at hop
      have hdis : m ∈ G.successors clicked ∨ m ∈ G.predecessors clicked ∨
          m = clicked := hin
      exact ⟨⟨fun _ => hdis, fun _ => hop.symm⟩, fun hcon => absurd hdis hcon⟩
    · rw [if_neg hin] at hop
      have hdis : ¬ (m ∈ G.successors clicked ∨ m ∈ G.predecessors clicked ∨
          m = clicked) := hin
      refine ⟨⟨fun heq => ?_, fun hcon => absurd hcon hdis⟩, fun _ => hop.symm⟩
      rw [← hop] at heq
      exact absurd heq (by norm_num)
  · intro n hn
    exact ⟨_, List.mem_map_of_mem _ hn⟩
  · intro e opEdge opLabel hmem
    rcases List.mem_map.1 hmem with ⟨f, _, hf⟩
    by_cases hin : inHighlightSet G clicked f.1 ∧ inHighlightSet G clicked f.2.1
    · rw [if_pos hin] at hf
      have he : f = e := congrArg Prod.fst hf
      have h1 : (1 : ℚ) = opEdge := congrArg (fun p => p.2.1) hf
      have h2 : (1 : ℚ) = opLabel := congrArg (fun p => p.2.2) hf
      subst he
      refine ⟨by rw [← h1, ← h2], ?_, ?_⟩
      · simp [← h1, hin]
      · intro hcon
        exact absurd hin hcon
    · rw [if_neg hin] at hf
      have he : f = e := congrArg Prod.fst hf
      have h1 : (1 / 5 : ℚ) = opEdge := congrArg (fun p => p.2.1) hf
      have h2 : (1 / 5 : ℚ) = opLabel := congrArg (fun p => p.2.2) hf
      subst he
      refine ⟨by rw [← h1, ← h2], ?_, fun _ => h1.symm⟩
      rw [← h1]
      constructor
      · intro hcon
        exact absurd hcon (by norm_num)
      · intro hcon
        exact absurd hcon hin

theorem C4_highlight_neighbors_opacities_witness :
    ((1 : ℚ) = 1 ↔
      (2 ∈ (buildGraph [⟨1, some "A", none⟩, ⟨2, some "B", none⟩]
          [⟨1, 2, some "ally"⟩]).successors 1 ∨
        2 ∈ (buildGraph [⟨1, some "A", none⟩, ⟨2, some "B", none⟩]
          [⟨1, 2, some "ally"⟩]).predecessors 1 ∨ (2 : Nat) = 1)) ∧
    (¬ (2 ∈ (buildGraph [⟨1, some "A", none⟩, ⟨2, some "B", none⟩]
          [⟨1, 2, some "ally"⟩]).successors 1 ∨
        2 ∈ (buildGraph [⟨1, some "A", none⟩, ⟨2, some "B", none⟩]
          [⟨1, 2, some "ally"⟩]).predecessors 1 ∨ (2 : Nat) = 1) →
      (1 : ℚ) = 1 / 4) :=
  (C4_highlight_neighbors_opacities
      (buildGraph [⟨1, some "A", none⟩, ⟨2, some "B", none⟩]
        [⟨1, 2, some "ally"⟩]) 1).1
    2 1 (by decide)

/-- Claim C5 counterexample: for endpoint centers (0,0) and (2,2) the control
point computed by update_path sits at squared Euclidean distance 800 from the
chord midpoint, not 40 squared = 1600; the code normalises the perpendicular
by QPointF.manhattanLength, so the offset is not a Euclidean distance of 40. -/
theorem C5_control_point_distance_counterexample :
    ((updatePath (0, 0) (2, 2)).pathCtrl.1 - (0 + 2) / 2) ^ 2 +
      ((updatePath (0, 0) (2, 2)).pathCtrl.2 - (0 + 2) / 2) ^ 2 = 800 ∧
    (800 : ℚ) ≠ 40 ^ 2 := by
  constructor
  · norm_num [updatePath, manhattanLength]
  · norm_num

theorem updatePath_ctrl (p1 p2 : ℚ × ℚ)
    (hm : |(-(p2.2 - p1.2))| + |p2.1 - p1.1| > 0) :
    (updatePath p1 p2).pathCtrl =
      ((p1.1 + p2.1) / 2 +
        -(p2.2 - p1.2) / (|p2.2 - p1.2| + |p2.1 - p1.1|) * 40,
       (p1.2 + p2.2) / 2 +
        (p2.1 - p1.1) / (|p2.2 - p1.2| + |p2.1 - p1.1|) * 40) := by
  simp only [updatePath, manhattanLength]
  rw [if_pos hm, abs_neg]

/-- Claim C5 amended: for distinct endpoint centers, update_path produces a
quadratic curve from p1 to p2 whose control point is the chord midpoint offset
perpendicular to the chord by 40 units measured in the Manhattan norm (so the
Euclidean offset equals 40 only for axis-aligned chords), and the edge label is
centered at the Bezier point of the curve at t = 1/2. -/
theorem C5_update_path_amended (p1 p2 : ℚ × ℚ) (h : ¬ p1 = p2) :
    (updatePath p1 p2).pathStart = p1 ∧
    (updatePath p1 p2).pathEnd = p2 ∧
    ((updatePath p1 p2).pathCtrl.1 - (p1.1 + p2.1) / 2) * (p2.1 - p1.1) +
      ((updatePath p1 p2).pathCtrl.2 - (p1.2 + p2.2) / 2) * (p2.2 - p1.2)
      = 0 ∧
    manhattanLength ((updatePath p1 p2).pathCtrl.1 - (p1.1 + p2.1) / 2,
      (updatePath p1 p2).pathCtrl.2 - (p1.2 + p2.2) / 2) = 40 ∧
    (updatePath p1 p2).labelAnchor =
      quadBezier p1 ((updatePath p1 p2).pathCtrl) p2 (1 / 2) := by
  have hvec : ¬ (p2.1 - p1.1 = 0 ∧ p2.2 - p1.2 = 0) := by
    intro hc
    apply h
    have h1 : p1.1 = p2.1 := by linarith [hc.1]
    have h2 : p1.2 = p2.2 := by linarith [hc.2]
    exact Prod.ext h1 h2
  have hmpos : |p2.2 - p1.2| + |p2.1 - p1.1| > 0 := by
    rcases Classical.em (p2.1 - p1.1 = 0) with h1 | h1
    · have h2 : ¬ p2.2 - p1.2 = 0 := fun hc => hvec ⟨h1, hc⟩
      have := abs_pos.2 h2
      have := abs_nonneg (p2.1 - p1.1)
      linarith
    · have := abs_pos.2 h1
      have := abs_nonneg (p2.2 - p1.2)
      linarith
  have hm : |(-(p2.2 - p1.2))| + |p2.1 - p1.1| > 0 := by
    rw [abs_neg]
    exact hmpos
  have hmne : |p2.2 - p1.2| + |p2.1 - p1.1| ≠ 0 := ne_of_gt hmpos
  refine ⟨rfl, rfl, ?_, ?_, ?_⟩
  · rw [updatePath_ctrl p1 p2 hm]
    dsimp only
    field_simp
    ring
  · rw [updatePath_ctrl p1 p2 hm]
    unfold manhattanLength
    dsimp only
    rw [show (p1.1 + p2.1) / 2 +
        -(p2.2 - p1.2) / (|p2.2 - p1.2| + |p2.1 - p1.1|) * 40 -
        (p1.1 + p2.1) / 2 =
        -(p2.2 - p1.2) / (|p2.2 - p1.2| + |p2.1 - p1.1|) * 40 from by ring]
    rw [show (p1.2 + p2.2) / 2 +
        (p2.1 - p1.1) / (|p2.2 - p1.2| + |p2.1 - p1.1|) * 40 -
        (p1.2 + p2.2) / 2 =
        (p2.1 - p1.1) / (|p2.2 - p1.2| + |p2.1 - p1.1|) * 40 from by ring]
    rw [abs_mul, abs_mul, abs_div, abs_div, abs_neg,
      abs_of_pos hmpos]
    rw [show |(40 : ℚ)| = 40 from by norm_num]
    field_simp
    ring
  · rfl

theorem C5_update_path_amended_witness :
    (updatePath ((0 : ℚ), (0 : ℚ)) ((2 : ℚ), (2 : ℚ))).pathStart =
      ((0 : ℚ), (0 : ℚ)) ∧
    (updatePath ((0 : ℚ), (0 : ℚ)) ((2 : ℚ), (2 : ℚ))).pathEnd =
      ((2 : ℚ), (2 : ℚ)) ∧
    ((updatePath ((0 : ℚ), (0 : ℚ)) ((2 : ℚ), (2 : ℚ))).pathCtrl.1 -
        ((0 : ℚ) + 2) / 2) * ((2 : ℚ) - 0) +
      ((updatePath ((0 : ℚ), (0 : ℚ)) ((2 : ℚ), (2 : ℚ))).pathCtrl.2 -
        ((0 : ℚ) + 2) / 2) * ((2 : ℚ) - 0) = 0 ∧
    manhattanLength
      ((updatePath ((0 : ℚ), (0 : ℚ)) ((2 : ℚ), (2 : ℚ))).pathCtrl.1 -
        ((0 : ℚ) + 2) / 2,
       (updatePath ((0 : ℚ), (0 : ℚ)) ((2 : ℚ), (2 : ℚ))).pathCtrl.2 -
        ((0 : ℚ) + 2) / 2) = 40 ∧
    (updatePath ((0 : ℚ), (0 : ℚ)) ((2 : ℚ), (2 : ℚ))).labelAnchor =
      quadBezier ((0 : ℚ), (0 : ℚ))
        ((updatePath ((0 : ℚ), (0 : ℚ)) ((2 : ℚ), (2 : ℚ))).pathCtrl)
        ((2 : ℚ), (2 : ℚ)) (1 / 2) :=
  C5_update_path_amended ((0 : ℚ), (0 : ℚ)) ((2 : ℚ), (2 : ℚ)) (by decide)

theorem addNode_key_present {ns : List (Nat × NodeData)} {id : Nat}
    (nid : Nat) (d : NodeData) (h : ∃ p ∈ ns, p.1 = id) :
    ∃ q ∈ addNode ns nid d, q.1 = id := by
  rcases h with ⟨p, hp, hpid⟩
  unfold addNode
  by_cases hc : ns.any (fun p => p.1 = nid)
  · rw [if_pos hc]
    by_cases hk : p.1 = nid
    · exact ⟨(p.1, d), List.mem_map.2 ⟨p, hp, by rw [if_pos hk]⟩, hpid⟩
    · exact ⟨p, List.mem_map.2 ⟨p, hp, by rw [if_neg hk]⟩, hpid⟩
  · rw [if_neg hc]
    exact ⟨p, List.mem_append_left _ hp, hpid⟩

theorem addNode_own_key (ns : List (Nat × NodeData)) (nid : Nat)
    (d : NodeData) : ∃ q ∈ addNode ns nid d, q.1 = nid := by
  unfold addNode
  by_cases hc : ns.any (fun p => p.1 = nid)
  · rw [if_pos hc]
    rcases List.any_eq_true.1 hc with ⟨f, hf, hfk⟩
    simp only [decide_eq_true_eq] at hfk
    exact ⟨(f.1, d), List.mem_map.2 ⟨f, hf, by rw [if_pos hfk]⟩, hfk⟩
  · rw [if_neg hc]
    exact ⟨(nid, d), List.mem_append_right _ (List.mem_singleton.2 rfl), rfl⟩

/-- The node fold of build_graph holds a key for every entry id. -/
theorem nodesFold_key_present (entries : List EntryRec)
    (ns : List (Nat × NodeData)) (id : Nat)
    (h : (∃ p ∈ ns, p.1 = id) ∨ id ∈ entries.map EntryRec.id) :
    ∃ p ∈ entries.foldl
      (fun ns e => addNode ns e.id ⟨entryLabel e, entryCategory e⟩) ns,
      p.1 = id := by
  induction entries generalizing ns with
  | nil =>
    rcases h with h | h
    · exact h
    · simp at h
  | cons e rest ih =>
    simp only [List.foldl_cons]
    rcases h with h | h
    · exact ih _ (Or.inl (addNode_key_present e.id _ h))
    · rcases List.mem_map.1 h with ⟨f, hf, hfid⟩
      rcases List.mem_cons.1 hf with hfe | hfr
      · have heid : e.id = id := by rw [← hfe]; exact hfid
        rcases addNode_own_key ns e.id ⟨entryLabel e, entryCategory e⟩ with
          ⟨q, hq, hqk⟩
        exact ih _ (Or.inl ⟨q, hq, hqk.trans heid⟩)
      · exact ih _ (Or.inr (List.mem_map.2 ⟨f, hfr, hfid⟩))

/-- Every stored node of the fold comes from the accumulator or is the
defaulted image of some entry. -/
theorem nodesFold_data_origin (entries : List EntryRec)
    (ns : List (Nat × NodeData)) :
    ∀ p ∈ entries.foldl
      (fun ns e => addNode ns e.id ⟨entryLabel e, entryCategory e⟩) ns,
      p ∈ ns ∨ ∃ e ∈ entries,
        p = (e.id, ⟨entryLabel e, entryCategory e⟩) := by
  induction entries generalizing ns with
  | nil => exact fun p hp => Or.inl hp
  | cons e rest ih =>
    intro p hp
    simp only [List.foldl_cons] at hp
    rcases ih _ p hp with h | ⟨f, hf, hpf⟩
    · rcases mem_addNode h with h1 | h1
      · exact Or.inl h1
      · exact Or.inr ⟨e, List.mem_cons_self _ _, h1⟩
    · exact Or.inr ⟨f, List.mem_cons_of_mem _ hf, hpf⟩

/-- Every edge label produced by the edge fold of build_graph comes from the
accumulator or is the defaulted type of some relationship row. -/
theorem edgesFold_label_origin (ids : List Nat) (rels : List RelRec)
    (es : List (Nat × Nat × String)) :
    ∀ e ∈ rels.foldl (fun es r =>
        if r.entry_a ∈ ids ∧ r.entry_b ∈ ids then
          addEdge es r.entry_a r.entry_b (relLabel r)
        else es) es,
      e ∈ es ∨ ∃ r ∈ rels, e.2.2 = relLabel r := by
  induction rels generalizing es with
  | nil => exact fun e he => Or.inl he
  | cons r rest ih =>
    intro e he
    simp only [List.foldl_cons] at he
    rcases ih _ e he with h | ⟨f, hf, hef⟩
    · by_cases hc : r.entry_a ∈ ids ∧ r.entry_b ∈ ids
      · rw [if_pos hc] at h
        rcases mem_addEdge_label h with h1 | h1
        · exact Or.inl h1
        · exact Or.inr ⟨r, List.mem_cons_self _ _, h1⟩
      · rw [if_neg hc] at h
        exact Or.inl h
    · exact Or.inr ⟨f, List.mem_cons_of_mem _ hf, hef⟩

/-- Claim C8: missing or empty field values are replaced by defaults and never
cause an error: an empty or missing title yields label "ID {id}", an empty or
missing category yields "default", an empty or missing relationship type
yields "relationship"; every entry becomes a node carrying defaulted
attributes and every edge label is a defaulted relationship type. -/
theorem C8_defaults_never_error :
    (∀ e : EntryRec, e.title = none ∨ e.title = some "" →
      entryLabel e = "ID " ++ toString e.id) ∧
    (∀ e : EntryRec, e.category = none ∨ e.category = some "" →
      entryCategory e = "default") ∧
    (∀ r : RelRec, r.type = none ∨ r.type = some "" →
      relLabel r = "relationship") ∧
    (∀ (entries : List EntryRec) (rels : List RelRec), ∀ e ∈ entries,
      ∃ d, (buildGraph entries rels).nodeData e.id = some d ∧
        ∃ e2 ∈ entries, e2.id = e.id ∧
          d = ⟨entryLabel e2, entryCategory e2⟩) ∧
    (∀ (entries : List EntryRec) (rels : List RelRec),
      ∀ e ∈ (buildGraph entries rels).edges,
        ∃ r ∈ rels, e.2.2 = relLabel r) := by
  refine ⟨?_, ?_, ?_, ?_, ?_⟩
  · intro e he
    rcases he with h | h
    all_goals simp [entryLabel, pyOr, h]
  · intro e he
    rcases he with h | h
    all_goals simp [entryCategory, pyOr, h]
  · intro r hr
    rcases hr with h | h
    all_goals simp [relLabel, pyOr, h]
  · intro entries rels e he
    have hkey : ∃ p ∈ (buildGraph entries rels).nodes, p.1 = e.id := by
      refine nodesFold_key_present entries [] e.id (Or.inr ?_)
      exact List.mem_map.2 ⟨e, he, rfl⟩
    have hfind : ((buildGraph entries rels).nodes.find?
        (fun p => p.1 = e.id)).isSome := by
      rw [List.find?_isSome]
      rcases hkey with ⟨p, hp, hpk⟩
      exact ⟨p, hp, by simp [hpk]⟩
    rcases Option.isSome_iff_exists.1 hfind with ⟨p, hp⟩
    have hpm : p ∈ (buildGraph entries rels).nodes :=
      List.mem_of_find?_eq_some hp
    have hpk : p.1 = e.id := by
      have := List.find?_some hp
      simpa using this
    rcases nodesFold_data_origin entries [] p hpm with h | ⟨e2, he2, hpe2⟩
    · simp at h
    · refine ⟨p.2, ?_, e2, he2, ?_, ?_⟩
      · unfold DiGraph.nodeData
        rw [hp]
        rfl
      · rw [← hpk, hpe2]
      · rw [hpe2]
  · intro entries rels e he
    have := edgesFold_label_origin ((buildGraph entries rels).nodeIds) rels
      [] e he
    rcases this with h | h
    · simp at h
    · exact h

theorem C8_defaults_never_error_witness :
    entryLabel ⟨5, none, none⟩ = "ID " ++ toString (5 : Nat) ∧
    entryCategory ⟨5, some "x", some ""⟩ = "default" ∧
    relLabel ⟨1, 2, some ""⟩ = "relationship" ∧
    (∃ d, (buildGraph [⟨5, none, none⟩] []).nodeData
        (EntryRec.id ⟨5, none, none⟩) = some d ∧
      ∃ e2 ∈ [(⟨5, none, none⟩ : EntryRec)],
        e2.id = EntryRec.id ⟨5, none, none⟩ ∧
        d = ⟨entryLabel e2, entryCategory e2⟩) ∧
    (∃ r ∈ [(⟨1, 2, none⟩ : RelRec)],
      ((1 : Nat), (2 : Nat), "relationship").2.2 = relLabel r) :=
  ⟨C8_defaults_never_error.1 ⟨5, none, none⟩ (Or.inl rfl),
   C8_defaults_never_error.2.1 ⟨5, some "x", some ""⟩ (Or.inr rfl),
   C8_defaults_never_error.2.2.1 ⟨1, 2, some ""⟩ (Or.inr rfl),
   C8_defaults_never_error.2.2.2.1 [⟨5, none, none⟩] [] ⟨5, none, none⟩
     (by decide),
   C8_defaults_never_error.2.2.2.2
     [⟨1, some "A", none⟩, ⟨2, some "B", none⟩] [⟨1, 2, none⟩]
     (1, 2, "relationship") (by decide)⟩

theorem any_edgeKey_iff (es : List (Nat × Nat × String)) (a b : Nat) :
    es.any (fun e => e.1 = a ∧ e.2.1 = b) = true ↔ (a, b) ∈ es.map edgeKey := by
  rw [List.any_eq_true]
  constructor
  · rintro ⟨e, he, hk⟩
    simp only [decide_eq_true_eq] at hk
    exact List.mem_map.2 ⟨e, he, by simp [edgeKey, hk.1, hk.2]⟩
  · intro h
    rcases List.mem_map.1 h with ⟨e, he, hk⟩
    refine ⟨e, he, ?_⟩
    simp only [decide_eq_true_eq]
    have h12 : e.1 = a ∧ e.2.1 = b := by
      simpa [edgeKey, Prod.ext_iff] using hk
    exact h12

theorem addEdge_keys_of_mem {es : List (Nat × Nat × String)} {a b : Nat}
    (lbl : String) (h : (a, b) ∈ es.map edgeKey) :
    (addEdge es a b lbl).map edgeKey = es.map edgeKey := by
  unfold addEdge
  rw [if_pos ((any_edgeKey_iff es a b).2 h)]
  rw [List.map_map]
  apply List.map_congr_left
  intro e _
  by_cases hk : e.1 = a ∧ e.2.1 = b
  · simp [Function.comp, if_pos hk, edgeKey]
  · simp [Function.comp, if_neg hk]

theorem addEdge_keys_of_not_mem {es : List (Nat × Nat × String)} {a b : Nat}
    (lbl : String) (h : ¬ (a, b) ∈ es.map edgeKey) :
    (addEdge es a b lbl).map edgeKey = es.map edgeKey ++ [(a, b)] := by
  unfold addEdge
  rw [if_neg (fun hc => h ((any_edgeKey_iff es a b).1 hc))]
  simp [edgeKey]

theorem mem_addEdge_of_eq_key {es : List (Nat × Nat × String)} {a b : Nat}
    {lbl : String} {e : Nat × Nat × String} (he : e ∈ addEdge es a b lbl)
    (hk : edgeKey e = (a, b)) : e = (a, b, lbl) := by
  have hk12 : e.1 = a ∧ e.2.1 = b := by
    simpa [edgeKey, Prod.ext_iff] using hk
  unfold addEdge at he
  by_cases hc : es.any (fun e => e.1 = a ∧ e.2.1 = b)
  · rw [if_pos hc] at he
    rcases List.mem_map.1 he with ⟨f, _, hef⟩
    by_cases hfk : f.1 = a ∧ f.2.1 = b
    · rw [if_pos hfk] at hef
      rw [← hef]
      rw [← hef] at hk12
      simp only at hk12
      rw [hk12.1]
      have : f.2.1 = b := hk12.2
      rw [this]
    · rw [if_neg hfk] at hef
      exfalso
      rw [hef] at hfk
      exact hfk hk12
  · rw [if_neg hc] at he
    rcases List.mem_append.1 he with h1 | h1
    · exfalso
      apply hc
      rw [any_edgeKey_iff]
      rw [← hk]
      exact List.mem_map_of_mem _ h1
    · exact List.mem_singleton.1 h1

theorem mem_addEdge_of_ne_key {es : List (Nat × Nat × String)} {a b : Nat}
    {lbl : String} {e : Nat × Nat × String} (he : e ∈ addEdge es a b lbl)
    (hk : ¬ edgeKey e = (a, b)) : e ∈ es := by
  unfold addEdge at he
  by_cases hc : es.any (fun e => e.1 = a ∧ e.2.1 = b)
  · rw [if_pos hc] at he
    rcases List.mem_map.1 he with ⟨f, hf, hef⟩
    by_cases hfk : f.1 = a ∧ f.2.1 = b
    · rw [if_pos hfk] at hef
      exfalso
      apply hk
      rw [← hef]
      simp only [edgeKey]
      rw [hfk.1, hfk.2]
    · rw [if_neg hfk] at hef
      exact hef ▸ hf
  · rw [if_neg hc] at he
    rcases List.mem_append.1 he with h1 | h1
    · exact h1
    · exfalso
      apply hk
      rw [List.mem_singleton.1 h1]
      rfl

/-- Keys of the edge fold of build_graph: a pair is a key exactly when it was
a key already or is the endpoint pair of some valid relationship row. -/
theorem edgesFold_mem_keys (ids : List Nat) (rels : List RelRec)
    (es : List (Nat × Nat × String)) (k : Nat × Nat) :
    (k ∈ (rels.foldl (fun es r =>
        if r.entry_a ∈ ids ∧ r.entry_b ∈ ids then
          addEdge es r.entry_a r.entry_b (relLabel r)
        else es) es).map edgeKey ↔
      k ∈ es.map edgeKey ∨
        ∃ r ∈ rels, (r.entry_a ∈ ids ∧ r.entry_b ∈ ids) ∧ relKey r = k) := by
  induction rels generalizing es with
  | nil => simp
  | cons r rest ih =>
    simp only [List.foldl_cons]
    rw [ih]
    by_cases hc : r.entry_a ∈ ids ∧ r.entry_b ∈ ids
    · rw [if_pos hc]
      by_cases hk : (r.entry_a, r.entry_b) ∈ es.map edgeKey
      · rw [addEdge_keys_of_mem _ hk]
        constructor
        · rintro (h | h)
          · exact Or.inl h
          · rcases h with ⟨r', hr', hcr', hkr'⟩
            exact Or.inr ⟨r', List.mem_cons_of_mem _ hr', hcr', hkr'⟩
        · rintro (h | h)
          · exact Or.inl h
          · rcases h with ⟨r', hr', hcr', hkr'⟩
            rcases List.mem_cons.1 hr' with hre | hrr
            · subst hre
              left
              rw [← hkr']
              exact hk
            · exact Or.inr ⟨r', hrr, hcr', hkr'⟩
      · rw [addEdge_keys_of_not_mem _ hk]
        constructor
        · rintro (h | h)
          · rcases List.mem_append.1 h with h1 | h1
            · exact Or.inl h1
            · right
              exact ⟨r, List.mem_cons_self _ _, hc,
                by rw [relKey, ← List.mem_singleton.1 h1]⟩
          · rcases h with ⟨r', hr', hcr', hkr'⟩
            exact Or.inr ⟨r', List.mem_cons_of_mem _ hr', hcr', hkr'⟩
        · rintro (h | h)
          · exact Or.inl (List.mem_append_left _ h)
          · rcases h with ⟨r', hr', hcr', hkr'⟩
            rcases List.mem_cons.1 hr' with hre | hrr
            · subst hre
              left
              apply List.mem_append_right
              rw [← hkr']
              exact List.mem_singleton.2 rfl
            · exact Or.inr ⟨r', hrr, hcr', hkr'⟩
    · rw [if_neg hc]
      constructor
      · rintro (h | h)
        · exact Or.inl h
        · rcases h with ⟨r', hr', hcr', hkr'⟩
          exact Or.inr ⟨r', List.mem_cons_of_mem _ hr', hcr', hkr'⟩
      · rintro (h | h)
        · exact Or.inl h
        · rcases h with ⟨r', hr', hcr', hkr'⟩
          rcases List.mem_cons.1 hr' with hre | hrr
          · subst hre
            exact absurd hcr' hc
          · exact Or.inr ⟨r', hrr, hcr', hkr'⟩

/-- The edge fold of build_graph keeps the edge keys duplicate free. -/
theorem edgesFold_keys_nodup (ids : List Nat) (rels : List RelRec)
    (es : List (Nat × Nat × String)) (hes : (es.map edgeKey).Nodup) :
    ((rels.foldl (fun es r =>
        if r.entry_a ∈ ids ∧ r.entry_b ∈ ids then
          addEdge es r.entry_a r.entry_b (relLabel r)
        else es) es).map edgeKey).Nodup := by
  induction rels generalizing es with
  | nil => exact hes
  | cons r rest ih =>
    simp only [List.foldl_cons]
    apply ih
    by_cases hc : r.entry_a ∈ ids ∧ r.entry_b ∈ ids
    · rw [if_pos hc]
      by_cases hk : (r.entry_a, r.entry_b) ∈ es.map edgeKey
      · rw [addEdge_keys_of_mem _ hk]
        exact hes
      · rw [addEdge_keys_of_not_mem _ hk]
        refine List.Nodup.append hes (List.nodup_singleton _) ?_
        intro x hx hxk
        rw [List.mem_singleton.1 hxk] at hx
        exact hk hx
    · rw [if_neg hc]
      exact hes

/-- Every edge held by the edge fold of build_graph either predates the fold
(no matching valid row) or carries the endpoints and defaulted label of the
last valid relationship row with its endpoint pair. -/
theorem edgesFold_label_last (ids : List Nat) (rels : List RelRec)
    (es : List (Nat × Nat × String)) :
    ∀ e ∈ rels.foldl (fun es r =>
        if r.entry_a ∈ ids ∧ r.entry_b ∈ ids then
          addEdge es r.entry_a r.entry_b (relLabel r)
        else es) es,
      (rels.filter (fun r => (r.entry_a ∈ ids ∧ r.entry_b ∈ ids) ∧
          relKey r = edgeKey e) = [] ∧ e ∈ es) ∨
      ∃ r, (rels.filter (fun r => (r.entry_a ∈ ids ∧ r.entry_b ∈ ids) ∧
          relKey r = edgeKey e)).getLast? = some r ∧
        e = (r.entry_a, r.entry_b, relLabel r) := by
  induction rels generalizing es with
  | nil =>
    intro e he
    exact Or.inl ⟨rfl, he⟩
  | cons r rest ih =>
    intro e he
    simp only [List.foldl_cons] at he
    by_cases hcr : (r.entry_a ∈ ids ∧ r.entry_b ∈ ids) ∧ relKey r = edgeKey e
    · rw [List.filter_cons_of_pos (by simpa using hcr)]
      have hc : r.entry_a ∈ ids ∧ r.entry_b ∈ ids := hcr.1
      rw [if_pos hc] at he
      rcases ih _ e he with ⟨hfe, hes'⟩ | ⟨r', hlast, her'⟩
      · right
        refine ⟨r, ?_, ?_⟩
        · rw [hfe]
          rfl
        · exact mem_addEdge_of_eq_key hes' hcr.2.symm
      · right
        refine ⟨r', ?_, her'⟩
        cases hl : rest.filter (fun r => decide ((r.entry_a ∈ ids ∧
            r.entry_b ∈ ids) ∧ relKey r = edgeKey e)) with
        | nil =>
          rw [hl] at hlast
          simp at hlast
        | cons y ys =>
          rw [List.getLast?_cons_cons]
          rw [hl] at hlast
          exact hlast
    · rw [List.filter_cons_of_neg (by simpa using hcr)]
      by_cases hc : r.entry_a ∈ ids ∧ r.entry_b ∈ ids
      · rw [if_pos hc] at he
        rcases ih _ e he with ⟨hfe, hes'⟩ | ⟨r', hlast, her'⟩
        · left
          refine ⟨hfe, ?_⟩
          refine mem_addEdge_of_ne_key hes' ?_
          intro hkey
          exact hcr ⟨hc, by rw [relKey]; exact hkey.symm⟩
        · exact Or.inr ⟨r', hlast, her'⟩
      · rw [if_neg hc] at he
        exact ih _ e he

/-- Filtering the valid rows by an endpoint pair is filtering all rows by
validity and that pair at once. -/
theorem validRels_filter_key (ids : List Nat) (rels : List RelRec)
    (k : Nat × Nat) :
    (validRels ids rels).filter (fun r => relKey r = k) =
      rels.filter (fun r => (r.entry_a ∈ ids ∧ r.entry_b ∈ ids) ∧
        relKey r = k) := by
  induction rels with
  | nil => rfl
  | cons r rest ih =>
    by_cases hc : r.entry_a ∈ ids ∧ r.entry_b ∈ ids
    · by_cases hk : relKey r = k
      · rw [validRels, List.filter_cons_of_pos (by simpa using hc),
          List.filter_cons_of_pos (by simpa using hk),
          List.filter_cons_of_pos (by simpa using And.intro hc hk)]
        rw [validRels] at ih
        rw [ih]
      · rw [validRels, List.filter_cons_of_pos (by simpa using hc),
          List.filter_cons_of_neg (by simpa using hk),
          List.filter_cons_of_neg (by simp [hk])]
        rw [validRels] at ih
        rw [ih]
    · rw [validRels, List.filter_cons_of_neg (by simpa using hc),
        List.filter_cons_of_neg (by simp [hc])]
      rw [validRels] at ih
      rw [ih]

/-- Membership in the valid-row keys. -/
theorem mem_validRels_keys (ids : List Nat) (rels : List RelRec)
    (k : Nat × Nat) :
    (k ∈ (validRels ids rels).map relKey ↔
      ∃ r ∈ rels, (r.entry_a ∈ ids ∧ r.entry_b ∈ ids) ∧ relKey r = k) := by
  unfold validRels
  constructor
  · intro h
    rcases List.mem_map.1 h with ⟨r, hr, hrk⟩
    rcases List.mem_filter.1 hr with ⟨hrm, hrc⟩
    simp only [decide_eq_true_eq] at hrc
    exact ⟨r, hrm, hrc, hrk⟩
  · rintro ⟨r, hr, hrc, hrk⟩
    exact List.mem_map.2 ⟨r, List.mem_filter.2 ⟨hr, by simpa using hrc⟩, hrk⟩

/-- Claim C6 amended: build_graph produces exactly one edge per distinct
ordered endpoint pair occurring among the relationship rows whose both
endpoints exist as nodes; that edge carries the endpoints and defaulted label
of the last such row with that pair, and the number of edges equals the number
of distinct ordered endpoint pairs among the valid rows. -/
theorem C6_one_edge_per_distinct_valid_pair (entries : List EntryRec)
    (rels : List RelRec) :
    ((buildGraph entries rels).edges.map edgeKey).Nodup ∧
    (∀ k, k ∈ (buildGraph entries rels).edges.map edgeKey ↔
      k ∈ (validRels (buildGraph entries rels).nodeIds rels).map relKey) ∧
    (∀ e ∈ (buildGraph entries rels).edges,
      ∃ r, ((validRels (buildGraph entries rels).nodeIds rels).filter
          (fun r2 => relKey r2 = edgeKey e)).getLast? = some r ∧
        e = (r.entry_a, r.entry_b, relLabel r)) ∧
    (buildGraph entries rels).edges.length =
      ((validRels (buildGraph entries rels).nodeIds rels).map
        relKey).toFinset.card := by
  have hnodup : ((buildGraph entries rels).edges.map edgeKey).Nodup :=
    edgesFold_keys_nodup ((buildGraph entries rels).nodeIds) rels []
      (by simp)
  have hmem : ∀ k, k ∈ (buildGraph entries rels).edges.map edgeKey ↔
      k ∈ (validRels (buildGraph entries rels).nodeIds rels).map relKey := by
    intro k
    rw [mem_validRels_keys]
    have hfold := edgesFold_mem_keys ((buildGraph entries rels).nodeIds)
      rels [] k
    have hedges : (buildGraph entries rels).edges =
        rels.foldl (fun es r =>
          if r.entry_a ∈ (buildGraph entries rels).nodeIds ∧
              r.entry_b ∈ (buildGraph entries rels).nodeIds then
            addEdge es r.entry_a r.entry_b (relLabel r)
          else es) [] := rfl
    rw [hedges, hfold]
    simp
  refine ⟨hnodup, hmem, ?_, ?_⟩
  · intro e he
    have := edgesFold_label_last ((buildGraph entries rels).nodeIds) rels []
      e he
    rcases this with ⟨_, hfalse⟩ | ⟨r, hlast, her⟩
    · simp at hfalse
    · refine ⟨r, ?_, her⟩
      rw [validRels_filter_key]
      exact hlast
  · have h1 : (buildGraph entries rels).edges.length =
        ((buildGraph entries rels).edges.map edgeKey).length :=
      (List.length_map _ _).symm
    have h2 : ((buildGraph entries rels).edges.map edgeKey).toFinset.card =
        ((buildGraph entries rels).edges.map edgeKey).length :=
      List.toFinset_card_of_nodup hnodup
    have h3 : ((buildGraph entries rels).edges.map edgeKey).toFinset =
        ((validRels (buildGraph entries rels).nodeIds rels).map
          relKey).toFinset := by
      apply Finset.ext
      intro k
      rw [List.mem_toFinset, List.mem_toFinset]
      exact hmem k
    rw [h1, ← h2, h3]

/-- Claim C6 counterexample: with entries 1 and 2 and two relationship rows
both joining (1, 2), build_graph yields one edge while two rows have both
endpoints present, so the edge count does not equal the valid row count. -/
theorem C6_edge_count_counterexample :
    (buildGraph [⟨1, some "A", none⟩, ⟨2, some "B", none⟩]
      [⟨1, 2, some "x"⟩, ⟨1, 2, some "y"⟩]).edges.length = 1 ∧
    (validRels
      (buildGraph [⟨1, some "A", none⟩, ⟨2, some "B", none⟩]
        [⟨1, 2, some "x"⟩, ⟨1, 2, some "y"⟩]).nodeIds
      [⟨1, 2, some "x"⟩, ⟨1, 2, some "y"⟩]).length = 2 ∧
    ¬ (buildGraph [⟨1, some "A", none⟩, ⟨2, some "B", none⟩]
        [⟨1, 2, some "x"⟩, ⟨1, 2, some "y"⟩]).edges.length =
      (validRels
        (buildGraph [⟨1, some "A", none⟩, ⟨2, some "B", none⟩]
          [⟨1, 2, some "x"⟩, ⟨1, 2, some "y"⟩]).nodeIds
        [⟨1, 2, some "x"⟩, ⟨1, 2, some "y"⟩]).length := by
  refine ⟨by decide, by decide, by decide⟩

theorem C6_one_edge_per_distinct_valid_pair_witness :
    ∃ r, ((validRels
        (buildGraph [⟨1, some "A", none⟩, ⟨2, some "B", none⟩]
          [⟨1, 2, some "x"⟩, ⟨1, 2, some "y"⟩]).nodeIds
        [⟨1, 2, some "x"⟩, ⟨1, 2, some "y"⟩]).filter
        (fun r2 => relKey r2 = edgeKey (1, 2, "y"))).getLast? = some r ∧
      ((1 : Nat), (2 : Nat), "y") = (r.entry_a, r.entry_b, relLabel r) :=
  (C6_one_edge_per_distinct_valid_pair
      [⟨1, some "A", none⟩, ⟨2, some "B", none⟩]
      [⟨1, 2, some "x"⟩, ⟨1, 2, some "y"⟩]).2.2.1
    (1, 2, "y") (by decide)

/-- Closed form of the BFS neighbor push: the visited list is extended by the
duplicate-free list of newly seen neighbors and the queue by the same nodes at
depth + 1. -/
theorem bfsPush_spec (visited : List Nat) (queue : List (Nat × Nat))
    (depth : Nat) (nbrs : List Nat) :
    ∃ news : List Nat,
      (bfsPush visited queue depth nbrs).1 = visited ++ news ∧
      (bfsPush visited queue depth nbrs).2 =
        queue ++ news.map (fun x => (x, depth + 1)) ∧
      news.Nodup ∧
      (∀ x ∈ news, x ∈ nbrs ∧ ¬ x ∈ visited) ∧
      (∀ x ∈ nbrs, x ∈ visited ∨ x ∈ news) := by
  induction nbrs generalizing visited queue with
  | nil => exact ⟨[], by simp [bfsPush], by simp [bfsPush], List.nodup_nil,
      by simp, by simp⟩
  | cons nb rest ih =>
    by_cases h : nb ∈ visited
    · rcases ih visited queue with ⟨news, h1, h2, h3, h4, h5⟩
      refine ⟨news, ?_, ?_, h3, ?_, ?_⟩
      · rw [← h1]
        simp [bfsPush, h]
      · rw [← h2]
        simp [bfsPush, h]
      · intro x hx
        exact ⟨List.mem_cons_of_mem _ (h4 x hx).1, (h4 x hx).2⟩
      · intro x hx
        rcases List.mem_cons.1 hx with hxe | hxr
        · exact Or.inl (hxe ▸ h)
        · exact h5 x hxr
    · rcases ih (visited ++ [nb]) (queue ++ [(nb, depth + 1)]) with
        ⟨news, h1, h2, h3, h4, h5⟩
      refine ⟨nb :: news, ?_, ?_, ?_, ?_, ?_⟩
      · have : (bfsPush visited queue depth (nb :: rest)).1 =
            (bfsPush (visited ++ [nb]) (queue ++ [(nb, depth + 1)]) depth
              rest).1 := by
          simp [bfsPush, h]
        rw [this, h1, List.append_assoc]
        rfl
      · have : (bfsPush visited queue depth (nb :: rest)).2 =
            (bfsPush (visited ++ [nb]) (queue ++ [(nb, depth + 1)]) depth
              rest).2 := by
          simp [bfsPush, h]
        rw [this, h2, List.append_assoc]
        rfl
      · refine List.Nodup.cons ?_ h3
        intro hc
        exact (h4 nb hc).2 (List.mem_append_right _ (List.mem_singleton.2 rfl))
      · intro x hx
        rcases List.mem_cons.1 hx with hxe | hxr
        · subst hxe
          exact ⟨List.mem_cons_self _ _, h⟩
        · refine ⟨List.mem_cons_of_mem _ (h4 x hxr).1, ?_⟩
          intro hv
          exact (h4 x hxr).2 (List.mem_append_left _ hv)
      · intro x hx
        rcases List.mem_cons.1 hx with hxe | hxr
        · exact Or.inr (hxe ▸ List.mem_cons_self _ _)
        · rcases h5 x hxr with hv | hn
          · rcases List.mem_append.1 hv with hv1 | hv1
            · exact Or.inl hv1
            · exact Or.inr (List.mem_singleton.1 hv1 ▸ List.mem_cons_self _ _)
          · exact Or.inr (List.mem_cons_of_mem _ hn)

theorem layersAppend_keys_of_mem {layers : List (Nat × List Nat)} {d : Nat}
    (n : Nat) (h : d ∈ layers.map Prod.fst) :
    (layersAppend layers d n).map Prod.fst = layers.map Prod.fst := by
  unfold layersAppend
  rw [if_pos]
  · rw [List.map_map]
    apply List.map_congr_left
    intro p _
    by_cases hk : p.1 = d
    · simp [Function.comp, if_pos hk]
    · simp [Function.comp, if_neg hk]
  · rw [List.any_eq_true]
    rcases List.mem_map.1 h with ⟨p, hp, hpd⟩
    exact ⟨p, hp, by simpa using hpd⟩

theorem layersAppend_keys_of_not_mem {layers : List (Nat × List Nat)}
    {d : Nat} (n : Nat) (h : ¬ d ∈ layers.map Prod.fst) :
    (layersAppend layers d n).map Prod.fst = layers.map Prod.fst ++ [d] := by
  unfold layersAppend
  rw [if_neg]
  · simp
  · intro hc
    rcases List.any_eq_true.1 hc with ⟨p, hp, hpd⟩
    simp only [decide_eq_true_eq] at hpd
    exact h (List.mem_map.2 ⟨p, hp, hpd⟩)

theorem layersAppend_keys_nodup {layers : List (Nat × List Nat)} {d : Nat}
    (n : Nat) (h : (layers.map Prod.fst).Nodup) :
    ((layersAppend layers d n).map Prod.fst).Nodup := by
  by_cases hd : d ∈ layers.map Prod.fst
  · rw [layersAppend_keys_of_mem n hd]
    exact h
  · rw [layersAppend_keys_of_not_mem n hd]
    refine List.Nodup.append h (List.nodup_singleton _) ?_
    intro x hx hxd
    rw [List.mem_singleton.1 hxd] at hx
    exact hd hx

theorem mem_layersMembers_layersAppend {layers : List (Nat × List Nat)}
    {d n u : Nat} (h : u ∈ layersMembers (layersAppend layers d n)) :
    u ∈ layersMembers layers ∨ u = n := by
  unfold layersAppend at h
  by_cases hc : layers.any (fun p => p.1 = d)
  · rw [if_pos hc] at h
    unfold layersMembers at h
    rcases List.mem_flatMap.1 h with ⟨p, hp, hup⟩
    rcases List.mem_map.1 hp with ⟨q, hq, hqp⟩
    by_cases hk : q.1 = d
    · rw [if_pos hk] at hqp
      rw [← hqp] at hup
      simp only at hup
      rcases List.mem_append.1 hup with h1 | h1
      · exact Or.inl (List.mem_flatMap.2 ⟨q, hq, h1⟩)
      · exact Or.inr (List.mem_singleton.1 h1)
    · rw [if_neg hk] at hqp
      rw [← hqp] at hup
      exact Or.inl (List.mem_flatMap.2 ⟨q, hq, hup⟩)
  · rw [if_neg hc] at h
    unfold layersMembers at h
    rcases List.mem_flatMap.1 h with ⟨p, hp, hup⟩
    rcases List.mem_append.1 hp with h1 | h1
    · exact Or.inl (List.mem_flatMap.2 ⟨p, h1, hup⟩)
    · rw [List.mem_singleton.1 h1] at hup
      exact Or.inr (List.mem_singleton.1 hup)

/-- Appending a node to a layers dict with duplicate-free keys adds exactly
that node to the stored members, up to order. -/
theorem layersMembers_layersAppend_perm {layers : List (Nat × List Nat)}
    {d : Nat} (n : Nat) (hnd : (layers.map Prod.fst).Nodup) :
    (layersMembers (layersAppend layers d n)).Perm
      (layersMembers layers ++ [n]) := by
  induction layers with
  | nil =>
    simp [layersAppend, layersMembers]
  | cons p rest ih =>
    have hrest : (rest.map Prod.fst).Nodup := (List.nodup_cons.1 hnd).2
    have hphead : ¬ p.1 ∈ rest.map Prod.fst := (List.nodup_cons.1 hnd).1
    by_cases hk : p.1 = d
    · have hkeyrest : ¬ rest.any (fun q => q.1 = d) := by
        intro hc
        rcases List.any_eq_true.1 hc with ⟨q, hq, hqd⟩
        simp only [decide_eq_true_eq] at hqd
        apply hphead
        rw [hk]
        exact List.mem_map.2 ⟨q, hq, hqd⟩
      have hany : (p :: rest).any (fun q => q.1 = d) := by
        rw [List.any_eq_true]
        exact ⟨p, List.mem_cons_self _ _, by simpa using hk⟩
      unfold layersAppend
      rw [if_pos hany]
      simp only [List.map_cons, if_pos hk]
      have hmap : rest.map (fun q => if q.1 = d then (q.1, q.2 ++ [n]) else q)
          = rest := by
        have hmap2 : rest.map
            (fun q => if q.1 = d then (q.1, q.2 ++ [n]) else q) =
            rest.map id := by
          apply List.map_congr_left
          intro q hq
          rw [if_neg]
          · rfl
          · intro hqd
            exact hkeyrest (List.any_eq_true.2 ⟨q, hq, by simpa using hqd⟩)
        rw [hmap2, List.map_id]
      rw [hmap]
      unfold layersMembers
      simp only [List.flatMap_cons]
      rw [List.append_assoc, List.append_assoc]
      exact List.Perm.append_left _ List.perm_append_comm
    · have hstep : layersAppend (p :: rest) d n =
          p :: layersAppend rest d n := by
        unfold layersAppend
        by_cases hc : rest.any (fun q => q.1 = d)
        · have hany : (p :: rest).any (fun q => q.1 = d) := by
            rw [List.any_cons]
            rw [List.any_eq_true] at hc
            rcases hc with ⟨q, hq, hqd⟩
            simp only [Bool.or_eq_true]
            exact Or.inr (List.any_eq_true.2 ⟨q, hq, hqd⟩)
          rw [if_pos hany, if_pos hc]
          simp only [List.map_cons, if_neg hk]
        · have hnone : ¬ (p :: rest).any (fun q => q.1 = d) := by
            rw [List.any_cons]
            simp only [Bool.or_eq_true]
            intro hor
            rcases hor with h1 | h1
            · simp only [decide_eq_true_eq] at h1
              exact hk h1
            · exact hc h1
          rw [if_neg hnone, if_neg hc]
          rfl
      rw [hstep]
      unfold layersMembers
      simp only [List.flatMap_cons]
      rw [List.append_assoc]
      exact List.Perm.append_left _ (ih hrest)

theorem bfsLoop_nil (G : DiGraph) (v : List Nat) (l : List (Nat × List Nat)) :
    bfsLoop G [] v l = (l, v) := by
  rw [bfsLoop.eq_def]

theorem bfsLoop_cons (G : DiGraph) (node depth : Nat)
    (rest : List (Nat × Nat)) (v : List Nat) (l : List (Nat × List Nat)) :
    bfsLoop G ((node, depth) :: rest) v l =
      bfsLoop G (bfsPush v rest depth (G.ugNeighbors node)).2
        (bfsPush v rest depth (G.ugNeighbors node)).1
        (layersAppend l depth node) := by
  rw [bfsLoop.eq_def]

/-- The BFS loop only extends the visited list. -/
theorem bfsLoop_visited_ext (G : DiGraph) (q : List (Nat × Nat))
    (v : List Nat) (l : List (Nat × List Nat)) :
    ∃ ext, (bfsLoop G q v l).2 = v ++ ext := by
  induction q, v, l using bfsLoop.induct G with
  | case1 v l => exact ⟨[], by rw [bfsLoop_nil, List.append_nil]⟩
  | case2 node depth rest v l ih =>
    rw [bfsLoop_cons]
    rcases ih with ⟨ext, hext⟩
    rcases bfsPush_spec v rest depth (G.ugNeighbors node) with
      ⟨news, h1, _, _, _, _⟩
    refine ⟨news ++ ext, ?_⟩
    rw [hext, h1, List.append_assoc]

/-- The BFS loop preserves duplicate-freeness of the visited list. -/
theorem bfsLoop_visited_nodup (G : DiGraph) (q : List (Nat × Nat))
    (v : List Nat) (l : List (Nat × List Nat)) (hv : v.Nodup) :
    (bfsLoop G q v l).2.Nodup := by
  induction q, v, l using bfsLoop.induct G with
  | case1 v l =>
    rw [bfsLoop_nil]
    exact hv
  | case2 node depth rest v l ih =>
    rw [bfsLoop_cons]
    apply ih
    rcases bfsPush_spec v rest depth (G.ugNeighbors node) with
      ⟨news, h1, _, hnodup, hnews, _⟩
    rw [h1]
    refine List.Nodup.append hv hnodup ?_
    intro x hxv hxn
    exact (hnews x hxn).2 hxv

/-- After the BFS loop terminates the visited list is, up to order, exactly
the member list of the produced layers, whose keys stay duplicate free. -/
theorem bfsLoop_perm (G : DiGraph) (q : List (Nat × Nat)) (v : List Nat)
    (l : List (Nat × List Nat)) (hkeys : (l.map Prod.fst).Nodup)
    (hperm : v.Perm (layersMembers l ++ q.map Prod.fst)) :
    (bfsLoop G q v l).2.Perm (layersMembers (bfsLoop G q v l).1) ∧
    ((bfsLoop G q v l).1.map Prod.fst).Nodup := by
  induction q, v, l using bfsLoop.induct G with
  | case1 v l =>
    rw [bfsLoop_nil]
    refine ⟨?_, hkeys⟩
    simpa using hperm
  | case2 node depth rest v l ih =>
    rw [bfsLoop_cons]
    rcases bfsPush_spec v rest depth (G.ugNeighbors node) with
      ⟨news, h1, h2, _, _, _⟩
    have hkeys2 : ((layersAppend l depth node).map Prod.fst).Nodup :=
      layersAppend_keys_nodup node hkeys
    have hmemb := @layersMembers_layersAppend_perm l depth node hkeys
    apply ih hkeys2
    rw [h1, h2]
    have hq : ((rest ++ news.map (fun x => (x, depth + 1))).map Prod.fst) =
        rest.map Prod.fst ++ news := by
      simp only [List.map_append, List.map_map]
      congr 1
      have hcomp : news.map (Prod.fst ∘ fun x => (x, depth + 1)) =
          news.map id := List.map_congr_left (fun a _ => rfl)
      rw [hcomp, List.map_id]
    rw [hq]
    simp only [List.map_cons] at hperm
    have s1 : (v ++ news).Perm
        ((layersMembers l ++ ((node, depth).1 :: rest.map Prod.fst)) ++
          news) := hperm.append_right news
    have s2 : (layersMembers l ++ ((node, depth).1 :: rest.map Prod.fst)) ++
        news = (layersMembers l ++ [node]) ++ (rest.map Prod.fst ++ news) := by
      simp [List.append_assoc]
    have s3 : ((layersMembers l ++ [node]) ++
        (rest.map Prod.fst ++ news)).Perm
        (layersMembers (layersAppend l depth node) ++
          (rest.map Prod.fst ++ news)) := (hmemb.symm).append_right _
    rw [s2] at s1
    exact s1.trans s3

/-- Every node appearing in the layers produced by the BFS loop was either
present already or has all its undirected neighbors visited at the end. -/
theorem bfsLoop_closure (G : DiGraph) (q : List (Nat × Nat)) (v : List Nat)
    (l : List (Nat × List Nat)) :
    ∀ u ∈ layersMembers (bfsLoop G q v l).1,
      u ∈ layersMembers l ∨
        ∀ w ∈ G.ugNeighbors u, w ∈ (bfsLoop G q v l).2 := by
  induction q, v, l using bfsLoop.induct G with
  | case1 v l =>
    rw [bfsLoop_nil]
    exact fun u hu => Or.inl hu
  | case2 node depth rest v l ih =>
    rw [bfsLoop_cons]
    intro u hu
    rcases ih u hu with h | h
    · rcases mem_layersMembers_layersAppend h with h1 | h1
      · exact Or.inl h1
      · right
        subst h1
        intro w hw
        rcases bfsPush_spec v rest depth (G.ugNeighbors u) with
          ⟨news, h1, _, _, _, hcov⟩
        rcases bfsLoop_visited_ext G
            (bfsPush v rest depth (G.ugNeighbors u)).2
            (bfsPush v rest depth (G.ugNeighbors u)).1
            (layersAppend l depth u) with ⟨ext, hext⟩
        rw [hext, h1]
        rcases hcov w hw with hw1 | hw1
        · exact List.mem_append_left _ (List.mem_append_left _ hw1)
        · exact List.mem_append_left _ (List.mem_append_right _ hw1)
    · exact Or.inr h

/-- Everything the BFS loop visits is reachable from the root, provided the
initial visited list and queue are. -/
theorem bfsLoop_sound (G : DiGraph) (root : Nat) (q : List (Nat × Nat))
    (v : List Nat) (l : List (Nat × List Nat))
    (hv : ∀ x ∈ v, reachUG G root x) (hq : ∀ p ∈ q, reachUG G root p.1) :
    ∀ u ∈ (bfsLoop G q v l).2, reachUG G root u := by
  induction q, v, l using bfsLoop.induct G with
  | case1 v l =>
    rw [bfsLoop_nil]
    exact hv
  | case2 node depth rest v l ih =>
    rw [bfsLoop_cons]
    rcases bfsPush_spec v rest depth (G.ugNeighbors node) with
      ⟨news, h1, h2, _, hnews, _⟩
    have hnode : reachUG G root node := hq (node, depth) (List.mem_cons_self _ _)
    have hreach_news : ∀ x ∈ news, reachUG G root x := by
      intro x hx
      exact Relation.ReflTransGen.tail hnode ((hnews x hx).1)
    apply ih
    · rw [h1]
      intro x hx
      rcases List.mem_append.1 hx with hx1 | hx1
      · exact hv x hx1
      · exact hreach_news x hx1
    · rw [h2]
      intro p hp
      rcases List.mem_append.1 hp with hp1 | hp1
      · exact hq p (List.mem_cons_of_mem _ hp1)
      · rcases List.mem_map.1 hp1 with ⟨x, hx, hxp⟩
        rw [← hxp]
        exact hreach_news x hx

theorem init_le_foldl_max (ds : List Nat) (a : Nat) : a ≤ ds.foldl max a := by
  induction ds generalizing a with
  | nil => exact Nat.le_refl a
  | cons d rest ih =>
    exact Nat.le_trans (Nat.le_max_left a d) (ih (max a d))

theorem mem_le_foldl_max (ds : List Nat) (a : Nat) :
    ∀ d ∈ ds, d ≤ ds.foldl max a := by
  induction ds generalizing a with
  | nil => intro d hd; simp at hd
  | cons d0 rest ih =>
    intro d hd
    rcases List.mem_cons.1 hd with hde | hdr
    · subst hde
      exact Nat.le_trans (Nat.le_max_right a d) (init_le_foldl_max rest _)
    · exact ih (max a d0) d hdr

/-- Every key of a layers dict is bounded by max(layers.keys()). -/
theorem keys_le_treeMaxDepth (layers : List (Nat × List Nat)) :
    ∀ k ∈ layers.map Prod.fst, k ≤ treeMaxDepth layers := by
  intro k hk
  unfold treeMaxDepth
  have hne : ¬ layers.isEmpty := by
    cases layers with
    | nil => simp at hk
    | cons p rest => simp
  rw [if_neg hne]
  exact mem_le_foldl_max _ 0 k hk

/-- A fold that skips elements satisfying a condition is the fold over the
filtered list. -/
theorem foldl_skip_eq_filter {α : Type} (l : List Nat) (f : α → Nat → α)
    (visited : List Nat) (init : α) :
    l.foldl (fun p n => if n ∈ visited then p else f p n) init =
      (l.filter (fun n => ¬ n ∈ visited)).foldl f init := by
  induction l generalizing init with
  | nil => rfl
  | cons n rest ih =>
    by_cases h : n ∈ visited
    · rw [List.foldl_cons, if_pos h,
        List.filter_cons_of_neg (by simpa using h)]
      exact ih init
    · rw [List.foldl_cons, if_neg h,
        List.filter_cons_of_pos (by simpa using h), List.foldl_cons]
      exact ih (f init n)

theorem find?_map_bump (layers : List (Nat × List Nat)) (d d2 n : Nat)
    (hne : ¬ d2 = d) :
    (layers.map (fun p => if p.1 = d then (p.1, p.2 ++ [n]) else p)).find?
        (fun p => p.1 = d2) =
      layers.find? (fun p => p.1 = d2) := by
  induction layers with
  | nil => rfl
  | cons p rest ih =>
    simp only [List.map_cons]
    by_cases hp : p.1 = d2
    · have hpd : ¬ p.1 = d := fun hc => hne (by rw [← hp, hc])
      rw [if_neg hpd, List.find?_cons_of_pos _ (by simpa using hp),
        List.find?_cons_of_pos _ (by simpa using hp)]
    · by_cases hpd : p.1 = d
      · rw [if_pos hpd, List.find?_cons_of_neg _ (by simpa using hp),
          List.find?_cons_of_neg _ (by simpa using hp)]
        exact ih
      · rw [if_neg hpd, List.find?_cons_of_neg _ (by simpa using hp),
          List.find?_cons_of_neg _ (by simpa using hp)]
        exact ih

theorem find?_append_single_ne (layers : List (Nat × List Nat))
    (d d2 n : Nat) (hne : ¬ d2 = d) :
    (layers ++ [(d, [n])]).find? (fun p => p.1 = d2) =
      layers.find? (fun p => p.1 = d2) := by
  induction layers with
  | nil =>
    have hpred : ¬ ((fun (p : Nat × List Nat) => decide (p.1 = d2))
        (d, [n]) = true) := by
      simp only [decide_eq_true_eq]
      exact fun hc => hne hc.symm
    rw [List.nil_append]
    exact List.find?_cons_of_neg _ hpred
  | cons p rest ih =>
    rw [List.cons_append]
    by_cases hp : p.1 = d2
    · rw [List.find?_cons_of_pos _ (by simpa using hp),
        List.find?_cons_of_pos _ (by simpa using hp)]
    · rw [List.find?_cons_of_neg _ (by simpa using hp),
        List.find?_cons_of_neg _ (by simpa using hp)]
      exact ih

theorem find?_append_single_fresh (layers : List (Nat × List Nat))
    (d n : Nat) (h : ¬ d ∈ layers.map Prod.fst) :
    (layers ++ [(d, [n])]).find? (fun p => p.1 = d) = some (d, [n]) := by
  induction layers with
  | nil =>
    rw [List.nil_append, List.find?_cons_of_pos _ (by simp)]
  | cons p rest ih =>
    have hp : ¬ p.1 = d := by
      intro hc
      exact h (List.mem_map.2 ⟨p, List.mem_cons_self _ _, hc⟩)
    rw [List.cons_append, List.find?_cons_of_neg _ (by simpa using hp)]
    refine ih ?_
    intro hc
    rcases List.mem_map.1 hc with ⟨q, hq, hqd⟩
    exact h (List.mem_map.2 ⟨q, List.mem_cons_of_mem _ hq, hqd⟩)

theorem layersLookup_layersAppend_ne (layers : List (Nat × List Nat))
    (d n : Nat) (d2 : Nat) (hne : ¬ d2 = d) :
    layersLookup (layersAppend layers d n) d2 = layersLookup layers d2 := by
  unfold layersAppend layersLookup
  by_cases hc : layers.any (fun p => p.1 = d)
  · rw [if_pos hc, find?_map_bump layers d d2 n hne]
  · rw [if_neg hc, find?_append_single_ne layers d d2 n hne]

theorem layersLookup_layersAppend_fresh (layers : List (Nat × List Nat))
    (d n : Nat) (h : ¬ d ∈ layers.map Prod.fst) :
    layersLookup (layersAppend layers d n) d = some [n] := by
  unfold layersAppend layersLookup
  rw [if_neg (fun hc => by
    rcases List.any_eq_true.1 hc with ⟨p, hp, hpd⟩
    simp only [decide_eq_true_eq] at hpd
    exact h (List.mem_map.2 ⟨p, hp, hpd⟩))]
  rw [find?_append_single_fresh layers d n h]
  rfl

theorem layersMembers_layersAppend_fresh (layers : List (Nat × List Nat))
    (d n : Nat) (h : ¬ d ∈ layers.map Prod.fst) :
    layersMembers (layersAppend layers d n) = layersMembers layers ++ [n] := by
  unfold layersAppend
  rw [if_neg]
  · unfold layersMembers
    simp
  · intro hc
    rcases List.any_eq_true.1 hc with ⟨p, hp, hpd⟩
    simp only [decide_eq_true_eq] at hpd
    exact h (List.mem_map.2 ⟨p, hp, hpd⟩)

/-- Folding the unreached nodes does not disturb layers at depths at or below
the starting max depth. -/
theorem unreachedFold_lookup_le (us : List Nat)
    (layers : List (Nat × List Nat)) (maxd d : Nat)
    (hk : ∀ k ∈ layers.map Prod.fst, k ≤ maxd) (hd : d ≤ maxd) :
    layersLookup ((us.foldl
        (fun p n => (layersAppend p.1 (p.2 + 1) n, p.2 + 1))
        (layers, maxd)).1) d =
      layersLookup layers d := by
  induction us generalizing layers maxd with
  | nil => rfl
  | cons n rest ih =>
    simp only [List.foldl_cons]
    have hfresh : ¬ (maxd + 1) ∈ layers.map Prod.fst := by
      intro hc
      have := hk _ hc
      omega
    have hk2 : ∀ k ∈ (layersAppend layers (maxd + 1) n).map Prod.fst,
        k ≤ maxd + 1 := by
      rw [layersAppend_keys_of_not_mem n hfresh]
      intro k hkmem
      rcases List.mem_append.1 hkmem with h1 | h1
      · exact Nat.le_trans (hk k h1) (Nat.le_succ _)
      · rw [List.mem_singleton.1 h1]
    rw [ih _ _ hk2 (Nat.le_trans hd (Nat.le_succ _))]
    exact layersLookup_layersAppend_ne layers (maxd + 1) n d (by omega)

/-- The unreached loop of compute_tree_layout places the i-th unreached node
alone at depth maxDepth + i + 1, adds exactly the unreached nodes to the layer
members, keeps all keys at most maxDepth plus the number of unreached nodes,
and preserves duplicate-free keys. -/
theorem unreachedFold_spec (us : List Nat) (layers : List (Nat × List Nat))
    (maxd : Nat) (hk : ∀ k ∈ layers.map Prod.fst, k ≤ maxd) :
    (∀ i (hi : i < us.length),
      layersLookup ((us.foldl
          (fun p n => (layersAppend p.1 (p.2 + 1) n, p.2 + 1))
          (layers, maxd)).1) (maxd + i + 1) = some [us.get ⟨i, hi⟩]) ∧
    layersMembers ((us.foldl
        (fun p n => (layersAppend p.1 (p.2 + 1) n, p.2 + 1))
        (layers, maxd)).1) = layersMembers layers ++ us ∧
    (∀ k ∈ ((us.foldl
        (fun p n => (layersAppend p.1 (p.2 + 1) n, p.2 + 1))
        (layers, maxd)).1).map Prod.fst, k ≤ maxd + us.length) ∧
    ((layers.map Prod.fst).Nodup →
      (((us.foldl (fun p n => (layersAppend p.1 (p.2 + 1) n, p.2 + 1))
        (layers, maxd)).1).map Prod.fst).Nodup) := by
  induction us generalizing layers maxd with
  | nil =>
    refine ⟨?_, by simp, ?_, fun h => h⟩
    · intro i hi
      simp at hi
    · intro k hkm
      simpa using hk k hkm
  | cons n rest ih =>
    simp only [List.foldl_cons]
    have hfresh : ¬ (maxd + 1) ∈ layers.map Prod.fst := by
      intro hc
      have := hk _ hc
      omega
    have hkeys1 : (layersAppend layers (maxd + 1) n).map Prod.fst =
        layers.map Prod.fst ++ [maxd + 1] :=
      layersAppend_keys_of_not_mem n hfresh
    have hk2 : ∀ k ∈ (layersAppend layers (maxd + 1) n).map Prod.fst,
        k ≤ maxd + 1 := by
      rw [hkeys1]
      intro k hkmem
      rcases List.mem_append.1 hkmem with h1 | h1
      · exact Nat.le_trans (hk k h1) (Nat.le_succ _)
      · rw [List.mem_singleton.1 h1]
    rcases ih (layersAppend layers (maxd + 1) n) (maxd + 1) hk2 with
      ⟨iha, ihb, ihc, ihd⟩
    refine ⟨?_, ?_, ?_, ?_⟩
    · intro i hi
      cases i with
      | zero =>
        have h0 : layersLookup ((rest.foldl
            (fun p n => (layersAppend p.1 (p.2 + 1) n, p.2 + 1))
            (layersAppend layers (maxd + 1) n, maxd + 1)).1) (maxd + 1) =
            layersLookup (layersAppend layers (maxd + 1) n) (maxd + 1) :=
          unreachedFold_lookup_le rest _ (maxd + 1) (maxd + 1) hk2
            (Nat.le_refl _)
        rw [show maxd + 0 + 1 = maxd + 1 from by omega, h0,
          layersLookup_layersAppend_fresh layers (maxd + 1) n hfresh]
        rfl
      | succ j =>
        have hj : j < rest.length := by
          simpa using hi
        have := iha j hj
        rw [show maxd + (j + 1) + 1 = maxd + 1 + j + 1 from by omega]
        rw [this]
        rfl
    · rw [ihb, layersMembers_layersAppend_fresh layers (maxd + 1) n hfresh,
        List.append_assoc]
      rfl
    · intro k hkm
      have := ihc k hkm
      have hlen : maxd + 1 + rest.length = maxd + (n :: rest).length := by
        simp [List.length_cons]
        omega
      omega
    · intro hnd
      refine ihd ?_
      rw [hkeys1]
      refine List.Nodup.append hnd (List.nodup_singleton _) ?_
      intro x hx hxm
      rw [List.mem_singleton.1 hxm] at hx
      exact hfresh hx

/-- The BFS of compute_tree_layout visits exactly the nodes reachable from
the root through the undirected graph. -/
theorem treeVisited_iff_reach (G : DiGraph) (rootId : Nat) :
    ∀ n, n ∈ treeVisited G rootId ↔ reachUG G rootId n := by
  intro n
  constructor
  · intro h
    refine bfsLoop_sound G rootId [(rootId, 0)] [rootId] [] ?_ ?_ n h
    · intro x hx
      rw [List.mem_singleton.1 hx]
      exact Relation.ReflTransGen.refl
    · intro p hp
      rw [List.mem_singleton.1 hp]
      exact Relation.ReflTransGen.refl
  · intro h
    induction h with
    | refl =>
      rcases bfsLoop_visited_ext G [(rootId, 0)] [rootId] [] with ⟨ext, hext⟩
      unfold treeVisited treeBfs
      rw [hext]
      exact List.mem_append_left _ (List.mem_singleton.2 rfl)
    | tail h1 hadj ih =>
      rename_i u w
      have hperm := bfsLoop_perm G [(rootId, 0)] [rootId] []
        (by simp) (by simp [layersMembers])
      have humem : u ∈ layersMembers (bfsLoop G [(rootId, 0)] [rootId] []).1 :=
        hperm.1.mem_iff.1 ih
      rcases bfsLoop_closure G [(rootId, 0)] [rootId] [] u humem with
        hc | hc
      · simp [layersMembers] at hc
      · exact hc w hadj

/-- Claim C2: compute_tree_layout gives each BFS-unreached node its own fresh
depth level: the unreached nodes are exactly the graph nodes not reachable
from the root through undirected edges, and the i-th unreached node (in node
order) is the sole occupant of depth maxDepth + i + 1, so unreached nodes sit
at strictly increasing pairwise distinct depths. -/
theorem C2_unreached_nodes_get_distinct_fresh_depths (G : DiGraph)
    (rootId : Nat) (_hroot : rootId ∈ G.nodeIds) :
    (∀ n, n ∈ treeUnreached G rootId ↔
      n ∈ G.nodeIds ∧ ¬ reachUG G rootId n) ∧
    (∀ i (_hi : i < (treeUnreached G rootId).length),
      ∃ u, (treeUnreached G rootId)[i]? = some u ∧
        layersLookup (treeFullLayers G rootId)
          (treeMaxDepth (treeBfsLayers G rootId) + i + 1) = some [u]) := by
  constructor
  · intro n
    unfold treeUnreached
    rw [List.mem_filter]
    simp only [decide_eq_true_eq]
    rw [treeVisited_iff_reach G rootId n]
  · have hfold : treeFullLayers G rootId =
        ((treeUnreached G rootId).foldl
          (fun p n => (layersAppend p.1 (p.2 + 1) n, p.2 + 1))
          (treeBfsLayers G rootId,
            treeMaxDepth (treeBfsLayers G rootId))).1 := by
      unfold treeFullLayers treeAddUnreached treeUnreached
      rw [foldl_skip_eq_filter]
    intro i hi
    rcases unreachedFold_spec (treeUnreached G rootId)
      (treeBfsLayers G rootId) (treeMaxDepth (treeBfsLayers G rootId))
      (keys_le_treeMaxDepth _) with ⟨ha, _, _, _⟩
    refine ⟨(treeUnreached G rootId).get ⟨i, hi⟩, ?_, ?_⟩
    · rw [List.getElem?_eq_getElem hi]
      rfl
    · rw [hfold]
      exact ha i hi

theorem exGraphC2_visited : treeVisited exGraphC2 0 = [0, 1] := by
  unfold treeVisited treeBfs
  rw [bfsLoop_cons]
  show (bfsLoop exGraphC2 [(1, 1)] [0, 1] [(0, [0])]).2 = [0, 1]
  rw [bfsLoop_cons]
  show (bfsLoop exGraphC2 [] [0, 1] [(0, [0]), (1, [1])]).2 = [0, 1]
  rw [bfsLoop_nil]

theorem exGraphC2_layers : treeBfsLayers exGraphC2 0 = [(0, [0]), (1, [1])] := by
  unfold treeBfsLayers treeBfs
  rw [bfsLoop_cons]
  show (bfsLoop exGraphC2 [(1, 1)] [0, 1] [(0, [0])]).1 = [(0, [0]), (1, [1])]
  rw [bfsLoop_cons]
  show (bfsLoop exGraphC2 [] [0, 1] [(0, [0]), (1, [1])]).1 =
    [(0, [0]), (1, [1])]
  rw [bfsLoop_nil]

theorem exGraphC2_unreached : treeUnreached exGraphC2 0 = [2, 3] := by
  unfold treeUnreached
  rw [exGraphC2_visited]
  decide

theorem exGraphC2_maxDepth : treeMaxDepth (treeBfsLayers exGraphC2 0) = 1 := by
  rw [exGraphC2_layers]
  decide

theorem C2_unreached_nodes_get_distinct_fresh_depths_witness :
    layersLookup (treeFullLayers exGraphC2 0) 2 = some [2] ∧
    layersLookup (treeFullLayers exGraphC2 0) 3 = some [3] ∧
    (2 ∈ treeUnreached exGraphC2 0 ↔
      2 ∈ exGraphC2.nodeIds ∧ ¬ reachUG exGraphC2 0 2) := by
  have h := C2_unreached_nodes_get_distinct_fresh_depths exGraphC2 0
    (by decide)
  refine ⟨?_, ?_, h.1 2⟩
  · rcases h.2 0 (by rw [exGraphC2_unreached]; decide) with ⟨u, hu1, hu2⟩
    rw [exGraphC2_unreached] at hu1
    have hu : u = 2 := by simpa using hu1.symm
    rw [exGraphC2_maxDepth] at hu2
    rw [hu] at hu2
    exact hu2
  · rcases h.2 1 (by rw [exGraphC2_unreached]; decide) with ⟨u, hu1, hu2⟩
    rw [exGraphC2_unreached] at hu1
    have hu : u = 3 := by simpa using hu1.symm
    rw [exGraphC2_maxDepth] at hu2
    rw [hu] at hu2
    exact hu2

theorem mem_insertDesc {G : DiGraph} {x z : Nat} {l : List Nat}
    (h : z ∈ insertDesc G x l) : z = x ∨ z ∈ l := by
  induction l with
  | nil =>
    unfold insertDesc at h
    exact Or.inl (List.mem_singleton.1 h)
  | cons y ys ih =>
    unfold insertDesc at h
    by_cases hc : G.ugDegree y < G.ugDegree x
    · rw [if_pos hc] at h
      rcases List.mem_cons.1 h with h1 | h1
      · exact Or.inl h1
      · exact Or.inr h1
    · rw [if_neg hc] at h
      rcases List.mem_cons.1 h with h1 | h1
      · exact Or.inr (h1 ▸ List.mem_cons_self _ _)
      · rcases ih h1 with h2 | h2
        · exact Or.inl h2
        · exact Or.inr (List.mem_cons_of_mem _ h2)

theorem insertDesc_perm (G : DiGraph) (x : Nat) (l : List Nat) :
    (insertDesc G x l).Perm (x :: l) := by
  induction l with
  | nil => exact List.Perm.refl _
  | cons y ys ih =>
    unfold insertDesc
    by_cases hc : G.ugDegree y < G.ugDegree x
    · rw [if_pos hc]
    · rw [if_neg hc]
      refine List.Perm.trans (ih.cons y) (List.Perm.swap x y ys)

theorem insertDesc_sorted (G : DiGraph) (x : Nat) (l : List Nat)
    (h : List.Pairwise (fun a b => G.ugDegree b ≤ G.ugDegree a) l) :
    List.Pairwise (fun a b => G.ugDegree b ≤ G.ugDegree a)
      (insertDesc G x l) := by
  induction l with
  | nil => simp [insertDesc]
  | cons y ys ih =>
    rcases List.pairwise_cons.1 h with ⟨hy, hys⟩
    unfold insertDesc
    by_cases hc : G.ugDegree y < G.ugDegree x
    · rw [if_pos hc]
      refine List.pairwise_cons.2 ⟨?_, h⟩
      intro z hz
      rcases List.mem_cons.1 hz with h1 | h1
      · rw [h1]
        exact Nat.le_of_lt hc
      · exact Nat.le_trans (hy z h1) (Nat.le_of_lt hc)
    · rw [if_neg hc]
      refine List.pairwise_cons.2 ⟨?_, ih hys⟩
      intro z hz
      rcases mem_insertDesc hz with h1 | h1
      · rw [h1]
        exact Nat.le_of_not_lt hc
      · exact hy z h1

theorem insertDesc_filter_eq_of_ne (G : DiGraph) (x : Nat) (l : List Nat)
    (k : Nat) (hk : ¬ G.ugDegree x = k) :
    (insertDesc G x l).filter (fun n => G.ugDegree n = k) =
      l.filter (fun n => G.ugDegree n = k) := by
  induction l with
  | nil =>
    unfold insertDesc
    rw [List.filter_cons_of_neg (by simpa using hk)]
  | cons y ys ih =>
    unfold insertDesc
    by_cases hc : G.ugDegree y < G.ugDegree x
    · rw [if_pos hc, List.filter_cons_of_neg (by simpa using hk)]
    · rw [if_neg hc]
      by_cases hy : G.ugDegree y = k
      · rw [List.filter_cons_of_pos (by simpa using hy),
          List.filter_cons_of_pos (by simpa using hy), ih]
      · rw [List.filter_cons_of_neg (by simpa using hy),
          List.filter_cons_of_neg (by simpa using hy), ih]

theorem insertDesc_filter_eq_of_eq (G : DiGraph) (x : Nat) (l : List Nat)
    (k : Nat) (hk : G.ugDegree x = k)
    (hsort : List.Pairwise (fun a b => G.ugDegree b ≤ G.ugDegree a) l) :
    (insertDesc G x l).filter (fun n => G.ugDegree n = k) =
      l.filter (fun n => G.ugDegree n = k) ++ [x] := by
  induction l with
  | nil =>
    unfold insertDesc
    rw [List.filter_cons_of_pos (by simpa using hk)]
    rfl
  | cons y ys ih =>
    rcases List.pairwise_cons.1 hsort with ⟨hy, hys⟩
    unfold insertDesc
    by_cases hc : G.ugDegree y < G.ugDegree x
    · rw [if_pos hc]
      have hyk : ¬ G.ugDegree y = k := by
        rw [← hk]
        omega
      have hrest : ys.filter (fun n => G.ugDegree n = k) = [] := by
        rw [List.filter_eq_nil_iff]
        intro z hz
        have := hy z hz
        simp only [decide_eq_true_eq]
        rw [← hk]
        omega
      rw [List.filter_cons_of_pos (by simpa using hk),
        List.filter_cons_of_neg (by simpa using hyk), hrest]
      rfl
    · rw [if_neg hc]
      by_cases hyk : G.ugDegree y = k
      · rw [List.filter_cons_of_pos (by simpa using hyk),
          List.filter_cons_of_pos (by simpa using hyk), ih hys]
        rfl
      · rw [List.filter_cons_of_neg (by simpa using hyk),
          List.filter_cons_of_neg (by simpa using hyk), ih hys]

theorem sortFold_sorted (G : DiGraph) (l acc : List Nat)
    (hacc : List.Pairwise (fun a b => G.ugDegree b ≤ G.ugDegree a) acc) :
    List.Pairwise (fun a b => G.ugDegree b ≤ G.ugDegree a)
      (l.foldl (fun acc x => insertDesc G x acc) acc) := by
  induction l generalizing acc with
  | nil => exact hacc
  | cons x rest ih =>
    exact ih _ (insertDesc_sorted G x acc hacc)

theorem sortFold_perm (G : DiGraph) (l acc : List Nat) :
    (l.foldl (fun acc x => insertDesc G x acc) acc).Perm (acc ++ l) := by
  induction l generalizing acc with
  | nil => simp
  | cons x rest ih =>
    simp only [List.foldl_cons]
    refine List.Perm.trans (ih (insertDesc G x acc)) ?_
    refine List.Perm.trans ((insertDesc_perm G x acc).append_right rest) ?_
    exact (List.perm_middle).symm

theorem sortFold_filter (G : DiGraph) (l acc : List Nat) (k : Nat)
    (hacc : List.Pairwise (fun a b => G.ugDegree b ≤ G.ugDegree a) acc) :
    (l.foldl (fun acc x => insertDesc G x acc) acc).filter
        (fun n => G.ugDegree n = k) =
      acc.filter (fun n => G.ugDegree n = k) ++
        l.filter (fun n => G.ugDegree n = k) := by
  induction l generalizing acc with
  | nil => simp
  | cons x rest ih =>
    simp only [List.foldl_cons]
    rw [ih _ (insertDesc_sorted G x acc hacc)]
    by_cases hk : G.ugDegree x = k
    · rw [insertDesc_filter_eq_of_eq G x acc k hk hacc,
        List.filter_cons_of_pos (by simpa using hk), List.append_assoc]
      rfl
    · rw [insertDesc_filter_eq_of_ne G x acc k hk,
        List.filter_cons_of_neg (by simpa using hk)]

/-- The per-layer sort of compute_tree_layout is sorted by descending
undirected degree. -/
theorem sortByDegDesc_sorted (G : DiGraph) (l : List Nat) :
    List.Pairwise (fun a b => G.ugDegree b ≤ G.ugDegree a)
      (sortByDegDesc G l) :=
  sortFold_sorted G l [] List.Pairwise.nil

/-- The per-layer sort of compute_tree_layout permutes the layer. -/
theorem sortByDegDesc_perm (G : DiGraph) (l : List Nat) :
    (sortByDegDesc G l).Perm l := by
  have := sortFold_perm G l []
  simpa [sortByDegDesc] using this

/-- The per-layer sort of compute_tree_layout is stable: nodes of equal
undirected degree keep their relative (discovery) order. -/
theorem sortByDegDesc_stable (G : DiGraph) (l : List Nat) (k : Nat) :
    (sortByDegDesc G l).filter (fun n => G.ugDegree n = k) =
      l.filter (fun n => G.ugDegree n = k) := by
  have := sortFold_filter G l [] k List.Pairwise.nil
  simpa [sortByDegDesc] using this

theorem find?_setmap_ne {β : Type} (l : List (Nat × β)) (n m : Nat) (v : β)
    (hne : ¬ m = n) :
    (l.map (fun q => if q.1 = n then (q.1, v) else q)).find?
        (fun q => q.1 = m) =
      l.find? (fun q => q.1 = m) := by
  induction l with
  | nil => rfl
  | cons q rest ih =>
    simp only [List.map_cons]
    by_cases hq : q.1 = m
    · have hqn : ¬ q.1 = n := fun h => hne (by rw [← hq, h])
      rw [if_neg hqn, List.find?_cons_of_pos _ (by simpa using hq),
        List.find?_cons_of_pos _ (by simpa using hq)]
    · by_cases hqn : q.1 = n
      · rw [if_pos hqn, List.find?_cons_of_neg _ (by simpa using hq),
          List.find?_cons_of_neg _ (by simpa using hq)]
        exact ih
      · rw [if_neg hqn, List.find?_cons_of_neg _ (by simpa using hq),
          List.find?_cons_of_neg _ (by simpa using hq)]
        exact ih

theorem find?_setmap_self {β : Type} (l : List (Nat × β)) (n : Nat) (v : β)
    (h : l.any (fun q => q.1 = n) = true) :
    ((l.map (fun q => if q.1 = n then (q.1, v) else q)).find?
        (fun q => q.1 = n)).map Prod.snd = some v := by
  induction l with
  | nil => simp at h
  | cons q rest ih =>
    simp only [List.map_cons]
    by_cases hq : q.1 = n
    · rw [if_pos hq, List.find?_cons_of_pos _ (by simpa using hq)]
      rfl
    · rw [if_neg hq, List.find?_cons_of_neg _ (by simpa using hq)]
      refine ih ?_
      rcases List.any_eq_true.1 h with ⟨p, hp, hpn⟩
      rcases List.mem_cons.1 hp with h1 | h1
      · simp only [decide_eq_true_eq] at hpn
        exact absurd (h1 ▸ hpn) hq
      · exact List.any_eq_true.2 ⟨p, h1, hpn⟩

theorem find?_append_one_ne {β : Type} (l : List (Nat × β)) (n m : Nat)
    (v : β) (hne : ¬ m = n) :
    (l ++ [(n, v)]).find? (fun q => q.1 = m) = l.find? (fun q => q.1 = m) := by
  induction l with
  | nil =>
    have hpred : ¬ ((fun (q : Nat × β) => decide (q.1 = m)) (n, v) = true) := by
      simp only [decide_eq_true_eq]
      exact fun hc => hne hc.symm
    rw [List.nil_append]
    exact List.find?_cons_of_neg _ hpred
  | cons q rest ih =>
    rw [List.cons_append]
    by_cases hq : q.1 = m
    · rw [List.find?_cons_of_pos _ (by simpa using hq),
        List.find?_cons_of_pos _ (by simpa using hq)]
    · rw [List.find?_cons_of_neg _ (by simpa using hq),
        List.find?_cons_of_neg _ (by simpa using hq)]
      exact ih

theorem find?_append_one_self {β : Type} (l : List (Nat × β)) (n : Nat)
    (v : β) (h : ∀ q ∈ l, ¬ q.1 = n) :
    (l ++ [(n, v)]).find? (fun q => q.1 = n) = some (n, v) := by
  induction l with
  | nil =>
    rw [List.nil_append, List.find?_cons_of_pos _ (by simp)]
  | cons q rest ih =>
    rw [List.cons_append, List.find?_cons_of_neg _
      (by simpa using h q (List.mem_cons_self _ _))]
    exact ih (fun p hp => h p (List.mem_cons_of_mem _ hp))

theorem posLookup_posSet_self (pos : List (Nat × ℚ × ℚ)) (n : Nat)
    (v : ℚ × ℚ) : posLookup (posSet pos n v) n = some v := by
  unfold posSet posLookup
  by_cases hc : pos.any (fun q => q.1 = n)
  · rw [if_pos hc]
    exact find?_setmap_self pos n v hc
  · rw [if_neg hc]
    rw [find?_append_one_self pos n v]
    · rfl
    · intro q hq hqn
      exact hc (List.any_eq_true.2 ⟨q, hq, by simpa using hqn⟩)

theorem posLookup_posSet_other (pos : List (Nat × ℚ × ℚ)) (n m : Nat)
    (v : ℚ × ℚ) (hne : ¬ m = n) :
    posLookup (posSet pos n v) m = posLookup pos m := by
  unfold posSet posLookup
  by_cases hc : pos.any (fun q => q.1 = n)
  · rw [if_pos hc, find?_setmap_ne pos n m v hne]
  · rw [if_neg hc, find?_append_one_ne pos n m v hne]

theorem posLookup_posSet_isSome (pos : List (Nat × ℚ × ℚ)) (n m : Nat)
    (v : ℚ × ℚ) (h : (posLookup pos m).isSome) :
    (posLookup (posSet pos n v) m).isSome := by
  by_cases hmn : m = n
  · subst hmn
    rw [posLookup_posSet_self]
    rfl
  · rw [posLookup_posSet_other pos n m v hmn]
    exact h

theorem placeNodes_other (ns : List Nat) (pos : List (Nat × ℚ × ℚ))
    (depth : Nat) (startX : ℚ) (i : Nat) (n : Nat) (hn : ¬ n ∈ ns) :
    posLookup (placeNodes pos depth startX i ns) n = posLookup pos n := by
  induction ns generalizing pos i with
  | nil => rfl
  | cons m rest ih =>
    unfold placeNodes
    have hnm : ¬ n = m := fun h => hn (h ▸ List.mem_cons_self _ _)
    rw [ih _ _ (fun h => hn (List.mem_cons_of_mem _ h)),
      posLookup_posSet_other _ _ _ _ hnm]

theorem placeNodes_isSome (ns : List Nat) (pos : List (Nat × ℚ × ℚ))
    (depth : Nat) (startX : ℚ) (i : Nat) (n : Nat)
    (h : n ∈ ns ∨ (posLookup pos n).isSome) :
    (posLookup (placeNodes pos depth startX i ns) n).isSome := by
  induction ns generalizing pos i with
  | nil =>
    rcases h with h | h
    · simp at h
    · exact h
  | cons m rest ih =>
    unfold placeNodes
    rcases h with h | h
    · rcases List.mem_cons.1 h with h1 | h1
      · refine ih _ _ (Or.inr ?_)
        rw [h1, posLookup_posSet_self]
        rfl
      · exact ih _ _ (Or.inl h1)
    · exact ih _ _ (Or.inr (posLookup_posSet_isSome _ _ _ _ h))

theorem placeNodes_get (ns : List Nat) (pos : List (Nat × ℚ × ℚ))
    (depth : Nat) (startX : ℚ) (i : Nat) (hnd : ns.Nodup) :
    ∀ j (hj : j < ns.length),
      posLookup (placeNodes pos depth startX i ns) (ns.get ⟨j, hj⟩) =
        some (startX + ((i + j : Nat) : ℚ) * horizontalGap,
          (depth : ℚ) * verticalGap) := by
  induction ns generalizing pos i with
  | nil => intro j hj; simp at hj
  | cons m rest ih =>
    intro j hj
    rcases List.nodup_cons.1 hnd with ⟨hm, hrest⟩
    cases j with
    | zero =>
      unfold placeNodes
      rw [placeNodes_other rest _ _ _ _ _ (by simpa using hm)]
      have : ((i + 0 : Nat) : ℚ) = ((i : Nat) : ℚ) := by norm_num
      rw [this]
      exact posLookup_posSet_self _ _ _
    | succ j2 =>
      unfold placeNodes
      have hj2 : j2 < rest.length := by simpa using hj
      have := ih (posSet pos m (startX + (i : ℚ) * horizontalGap,
        (depth : ℚ) * verticalGap)) (i + 1) hrest j2 hj2
      have harith : ((i + 1 + j2 : Nat) : ℚ) = ((i + (j2 + 1) : Nat) : ℚ) := by
        congr 1
        omega
      rw [harith] at this
      exact this

theorem posFold_other (ls : List (Nat × List Nat))
    (pos : List (Nat × ℚ × ℚ)) (n : Nat) (hn : ¬ n ∈ layersMembers ls) :
    posLookup (ls.foldl (fun pos p => placeLayer pos p.1 p.2) pos) n =
      posLookup pos n := by
  induction ls generalizing pos with
  | nil => rfl
  | cons q rest ih =>
    simp only [List.foldl_cons]
    have hq : ¬ n ∈ q.2 := by
      intro h
      exact hn (List.mem_flatMap.2 ⟨q, List.mem_cons_self _ _, h⟩)
    have hrest : ¬ n ∈ layersMembers rest := by
      intro h
      rcases List.mem_flatMap.1 h with ⟨p, hp, hnp⟩
      exact hn (List.mem_flatMap.2 ⟨p, List.mem_cons_of_mem _ hp, hnp⟩)
    rw [ih _ hrest]
    unfold placeLayer
    exact placeNodes_other _ _ _ _ _ _ hq

theorem posFold_isSome (ls : List (Nat × List Nat))
    (pos : List (Nat × ℚ × ℚ)) (n : Nat)
    (h : n ∈ layersMembers ls ∨ (posLookup pos n).isSome) :
    (posLookup (ls.foldl (fun pos p => placeLayer pos p.1 p.2) pos)
      n).isSome := by
  induction ls generalizing pos with
  | nil =>
    rcases h with h | h
    · simp [layersMembers] at h
    · exact h
  | cons q rest ih =>
    simp only [List.foldl_cons]
    rcases h with h | h
    · rcases List.mem_flatMap.1 h with ⟨p, hp, hnp⟩
      rcases List.mem_cons.1 hp with h1 | h1
      · refine ih _ (Or.inr ?_)
        unfold placeLayer
        exact placeNodes_isSome _ _ _ _ _ _ (Or.inl (h1 ▸ hnp))
      · exact ih _ (Or.inl (List.mem_flatMap.2 ⟨p, h1, hnp⟩))
    · refine ih _ (Or.inr ?_)
      unfold placeLayer
      exact placeNodes_isSome _ _ _ _ _ _ (Or.inr h)

theorem posFold_get (ls : List (Nat × List Nat)) (pos : List (Nat × ℚ × ℚ))
    (hnd : (layersMembers ls).Nodup) :
    ∀ p ∈ ls, ∀ j (hj : j < p.2.length),
      posLookup (ls.foldl (fun pos p => placeLayer pos p.1 p.2) pos)
        (p.2.get ⟨j, hj⟩) =
        some (-(((p.2.length : ℤ) - 1 : ℤ) * horizontalGap) / 2 +
          ((j : Nat) : ℚ) * horizontalGap, (p.1 : ℚ) * verticalGap) := by
  induction ls generalizing pos with
  | nil => intro p hp; simp at hp
  | cons q rest ih =>
    have hq2 : q.2.Nodup := by
      have : layersMembers (q :: rest) = q.2 ++ layersMembers rest := by
        unfold layersMembers
        simp
      rw [this] at hnd
      exact (List.nodup_append.1 hnd).1
    have hrest : (layersMembers rest).Nodup := by
      have : layersMembers (q :: rest) = q.2 ++ layersMembers rest := by
        unfold layersMembers
        simp
      rw [this] at hnd
      exact (List.nodup_append.1 hnd).2.1
    have hdisj : ∀ x ∈ q.2, ¬ x ∈ layersMembers rest := by
      have : layersMembers (q :: rest) = q.2 ++ layersMembers rest := by
        unfold layersMembers
        simp
      rw [this] at hnd
      intro x hx
      exact (List.nodup_append.1 hnd).2.2 hx
    intro p hp j hj
    simp only [List.foldl_cons]
    rcases List.mem_cons.1 hp with h1 | h1
    · subst h1
      have hmem : p.2.get ⟨j, hj⟩ ∈ p.2 := List.get_mem _ _ _
      rw [posFold_other rest _ _ (hdisj _ hmem)]
      unfold placeLayer
      have := placeNodes_get p.2 pos p.1
        (-(((p.2.length : ℤ) - 1 : ℤ) * horizontalGap) / 2) 0 hq2 j hj
      have harith : ((0 + j : Nat) : ℚ) = ((j : Nat) : ℚ) := by
        congr 1
        omega
      rw [harith] at this
      exact this
    · exact ih _ hrest p h1 j hj

theorem layersMembers_sortLayers_perm (G : DiGraph)
    (ls : List (Nat × List Nat)) :
    (layersMembers (sortLayers G ls)).Perm (layersMembers ls) := by
  induction ls with
  | nil => exact List.Perm.refl _
  | cons q rest ih =>
    unfold sortLayers layersMembers
    simp only [List.map_cons, List.flatMap_cons]
    unfold sortLayers layersMembers at ih
    exact List.Perm.append (sortByDegDesc_perm G q.2) ih

theorem treeFullLayers_eq_fold (G : DiGraph) (rootId : Nat) :
    treeFullLayers G rootId =
      ((treeUnreached G rootId).foldl
        (fun p n => (layersAppend p.1 (p.2 + 1) n, p.2 + 1))
        (treeBfsLayers G rootId,
          treeMaxDepth (treeBfsLayers G rootId))).1 := by
  unfold treeFullLayers treeAddUnreached treeUnreached
  rw [foldl_skip_eq_filter]

theorem treeVisited_perm_members (G : DiGraph) (rootId : Nat) :
    (treeVisited G rootId).Perm
      (layersMembers (treeBfsLayers G rootId)) := by
  have hperm := bfsLoop_perm G [(rootId, 0)] [rootId] []
    (by simp) (by simp [layersMembers])
  exact hperm.1

theorem treeFullLayers_members (G : DiGraph) (rootId : Nat) :
    layersMembers (treeFullLayers G rootId) =
      layersMembers (treeBfsLayers G rootId) ++ treeUnreached G rootId := by
  rw [treeFullLayers_eq_fold]
  rcases unreachedFold_spec (treeUnreached G rootId)
    (treeBfsLayers G rootId) (treeMaxDepth (treeBfsLayers G rootId))
    (keys_le_treeMaxDepth _) with ⟨_, hb, _, _⟩
  exact hb

theorem treeFullLayers_members_nodup (G : DiGraph) (rootId : Nat)
    (hnd : G.nodeIds.Nodup) :
    (layersMembers (treeFullLayers G rootId)).Nodup := by
  rw [treeFullLayers_members]
  have hvperm := treeVisited_perm_members G rootId
  have hvnodup : (treeVisited G rootId).Nodup :=
    bfsLoop_visited_nodup G [(rootId, 0)] [rootId] []
      (List.nodup_singleton _)
  have hbnodup : (layersMembers (treeBfsLayers G rootId)).Nodup :=
    hvperm.nodup_iff.1 hvnodup
  have hunodup : (treeUnreached G rootId).Nodup := hnd.filter _
  refine List.Nodup.append hbnodup hunodup ?_
  intro x hxb hxu
  have hxv : x ∈ treeVisited G rootId := hvperm.mem_iff.2 hxb
  unfold treeUnreached at hxu
  rcases List.mem_filter.1 hxu with ⟨_, hxnv⟩
  simp only [decide_eq_true_eq] at hxnv
  exact hxnv hxv

theorem mem_treeSortedLayers_members (G : DiGraph) (rootId : Nat) :
    ∀ n ∈ G.nodeIds, n ∈ layersMembers (treeSortedLayers G rootId) := by
  intro n hn
  have hperm := layersMembers_sortLayers_perm G (treeFullLayers G rootId)
  unfold treeSortedLayers
  rw [hperm.mem_iff, treeFullLayers_members]
  by_cases hv : n ∈ treeVisited G rootId
  · exact List.mem_append_left _
      ((treeVisited_perm_members G rootId).mem_iff.1 hv)
  · refine List.mem_append_right _ ?_
    unfold treeUnreached
    exact List.mem_filter.2 ⟨hn, by simpa using hv⟩

theorem treeSortedLayers_members_nodup (G : DiGraph) (rootId : Nat)
    (hnd : G.nodeIds.Nodup) :
    (layersMembers (treeSortedLayers G rootId)).Nodup :=
  (layersMembers_sortLayers_perm G (treeFullLayers G rootId)).nodup_iff.2
    (treeFullLayers_members_nodup G rootId hnd)

/-- Claim C3: compute_tree_layout returns a position for every node of the
graph; within each depth level the nodes are the stable sort of the layer by
descending undirected degree (descending-sorted, a permutation of the layer,
equal-degree runs in original discovery order), and the i-th node of a sorted
level of count nodes sits at
x = -(count - 1) * horizontalGap / 2 + i * horizontalGap and
y = depth * verticalGap, with horizontalGap 150 and verticalGap 170. -/
theorem C3_tree_layout_positions (G : DiGraph) (rootId : Nat)
    (_hroot : rootId ∈ G.nodeIds) (hnd : G.nodeIds.Nodup) :
    (∀ n ∈ G.nodeIds, ∃ p,
      posLookup (computeTreeLayout G rootId) n = some p) ∧
    (∀ p ∈ treeSortedLayers G rootId,
      List.Pairwise (fun a b => G.ugDegree b ≤ G.ugDegree a) p.2) ∧
    (∀ p ∈ treeSortedLayers G rootId, ∃ q ∈ treeFullLayers G rootId,
      q.1 = p.1 ∧ p.2.Perm q.2 ∧
      ∀ k, p.2.filter (fun n => G.ugDegree n = k) =
        q.2.filter (fun n => G.ugDegree n = k)) ∧
    (∀ p ∈ treeSortedLayers G rootId, ∀ i (_hi : i < p.2.length),
      ∃ u, p.2[i]? = some u ∧
        posLookup (computeTreeLayout G rootId) u =
          some (-(((p.2.length : ℤ) - 1 : ℤ) * horizontalGap) / 2 +
            ((i : Nat) : ℚ) * horizontalGap, (p.1 : ℚ) * verticalGap)) := by
  refine ⟨?_, ?_, ?_, ?_⟩
  · intro n hn
    have hsome : (posLookup (computeTreeLayout G rootId) n).isSome := by
      unfold computeTreeLayout
      exact posFold_isSome _ [] n
        (Or.inl (mem_treeSortedLayers_members G rootId n hn))
    rcases Option.isSome_iff_exists.1 hsome with ⟨p, hp⟩
    exact ⟨p, hp⟩
  · intro p hp
    unfold treeSortedLayers sortLayers at hp
    rcases List.mem_map.1 hp with ⟨q, _, hqp⟩
    rw [← hqp]
    exact sortByDegDesc_sorted G q.2
  · intro p hp
    unfold treeSortedLayers sortLayers at hp
    rcases List.mem_map.1 hp with ⟨q, hq, hqp⟩
    refine ⟨q, hq, ?_, ?_, ?_⟩
    · rw [← hqp]
    · rw [← hqp]
      exact sortByDegDesc_perm G q.2
    · intro k
      rw [← hqp]
      exact sortByDegDesc_stable G q.2 k
  · intro p hp i hi
    refine ⟨p.2.get ⟨i, hi⟩, ?_, ?_⟩
    · rw [List.getElem?_eq_getElem hi]
      rfl
    · unfold computeTreeLayout
      exact posFold_get (treeSortedLayers G rootId) []
        (treeSortedLayers_members_nodup G rootId hnd) p hp i hi

theorem exGraphC3_visited : treeVisited exGraphC3 1 = [1, 2, 3] := by
  unfold treeVisited treeBfs
  rw [bfsLoop_cons]
  show (bfsLoop exGraphC3 [(2, 1)] [1, 2] [(0, [1])]).2 = [1, 2, 3]
  rw [bfsLoop_cons]
  show (bfsLoop exGraphC3 [(3, 2)] [1, 2, 3]
    [(0, [1]), (1, [2])]).2 = [1, 2, 3]
  rw [bfsLoop_cons]
  show (bfsLoop exGraphC3 [] [1, 2, 3]
    [(0, [1]), (1, [2]), (2, [3])]).2 = [1, 2, 3]
  rw [bfsLoop_nil]

theorem exGraphC3_bfsLayers :
    treeBfsLayers exGraphC3 1 = [(0, [1]), (1, [2]), (2, [3])] := by
  unfold treeBfsLayers treeBfs
  rw [bfsLoop_cons]
  show (bfsLoop exGraphC3 [(2, 1)] [1, 2] [(0, [1])]).1 =
    [(0, [1]), (1, [2]), (2, [3])]
  rw [bfsLoop_cons]
  show (bfsLoop exGraphC3 [(3, 2)] [1, 2, 3] [(0, [1]), (1, [2])]).1 =
    [(0, [1]), (1, [2]), (2, [3])]
  rw [bfsLoop_cons]
  show (bfsLoop exGraphC3 [] [1, 2, 3]
    [(0, [1]), (1, [2]), (2, [3])]).1 = [(0, [1]), (1, [2]), (2, [3])]
  rw [bfsLoop_nil]

theorem exGraphC3_sortedLayers :
    treeSortedLayers exGraphC3 1 = [(0, [1]), (1, [2]), (2, [3])] := by
  unfold treeSortedLayers treeFullLayers
  rw [exGraphC3_bfsLayers, exGraphC3_visited]
  decide

theorem C3_tree_layout_positions_witness :
    (∃ p, posLookup (computeTreeLayout exGraphC3 1) 3 = some p) ∧
    List.Pairwise
      (fun a b => exGraphC3.ugDegree b ≤ exGraphC3.ugDegree a) [2] ∧
    (∃ u, [2][0]? = some u ∧
      posLookup (computeTreeLayout exGraphC3 1) u =
        some (-((([2].length : ℤ) - 1 : ℤ) * horizontalGap) / 2 +
          ((0 : Nat) : ℚ) * horizontalGap, ((1 : Nat) : ℚ) * verticalGap)) := by
  have h := C3_tree_layout_positions exGraphC3 1 (by decide) (by decide)
  refine ⟨h.1 3 (by decide), ?_, ?_⟩
  · exact h.2.1 (1, [2]) (by rw [exGraphC3_sortedLayers]; decide)
  · exact h.2.2.2 (1, [2]) (by rw [exGraphC3_sortedLayers]; decide) 0
      (by decide)

end RWY
